import Mathlib

/-!
Verification development for the Snowman decompiler core: the pipeline
controller (MasterAnalyzer.cpp) and the liveness analyzer
(ir/liveness/LivenessAnalyzer.cpp).

IR nodes are identified by numeric ids (the shallow counterpart of the C++
object pointers).  Collaborator interfaces that live outside the two source
files (the census visitor, the Liveness set, the region graph surface, the
Hooks and Signatures surfaces, the dataflow record, the architecture
predicate) are modelled from the specification at their contract surface;
the analyzer and controller logic itself is translated from the source.
-/

namespace Snowman

/-- Identifier of a Term node (stands for the C++ object pointer). -/
abbrev TermId := Nat

/-- Identifier of a Statement node (stands for the C++ object pointer). -/
abbrev StmtId := Nat

/-- Modelled from the spec: CalleeId, an identity for a call target. -/
abbrev CalleeId := Nat

/-- Modelled from the spec: MemoryLocation is a (domain, offset, size)
triple naming a storage slot. -/
structure MemoryLocation where
  domain : Nat
  offset : Nat
  size : Nat
deriving DecidableEq, Repr

/-- Kind tag plus kind-specific sub-term references of a Term, following the
tagged variant of Terms.h as described by the data model: IntConst,
Intrinsic, Undefined, MemoryLocationAccess, Dereference, UnaryOperator,
BinaryOperator, Choice.  The extra unsupported constructor stands for any
kind outside this enumeration, which the analyzer handles in its default
switch branches. -/
inductive TermKind where
  | intConst
  | intrinsic
  | undefined
  | memoryLocationAccess (loc : MemoryLocation)
  | dereference (address : TermId)
  | unaryOperator (operand : TermId)
  | binaryOperator (left right : TermId)
  | choice (preferredTerm defaultTerm : TermId)
  | unsupported
deriving DecidableEq, Repr

/-- A Term: kind, direction (read or write, per the data model), and the
optional source sub-term of a write (Term::source, the right-hand side
stored by an assignment). -/
structure TermData where
  kind : TermKind
  isWrite : Bool
  source : Option TermId
deriving DecidableEq, Repr

/-- A Statement: tagged variant following Statements.h as used by the
analyzer.  A Jump carries an optional condition term and the optional
address terms of its then and else targets; a Call carries its target term.
The unsupported constructor stands for any kind outside the enumeration,
handled by the default switch branch. -/
inductive StmtData where
  | comment
  | inlineAssembly
  | assignment
  | kill
  | jump (condition thenAddress elseAddress : Option TermId)
  | call (target : TermId)
  | ret
  | unsupported
deriving DecidableEq, Repr

/-- Modelled from the spec: one chunk of a ReachingDefinitions record; the
analyzer reads only the set of defining terms of each chunk. -/
structure Chunk where
  definitions : List TermId
deriving DecidableEq, Repr

/-- Modelled from the spec: a Signature holds an ordered list of argument
memory locations and an optional return value location. -/
structure Signature where
  arguments : List MemoryLocation
  returnValue : Option MemoryLocation

/-- Modelled from the spec: a node of the structured control-flow graph.  A
region may be a Switch; a Switch optionally exposes a boundsCheckNode, a
basic block whose terminating jump the structurer proved redundant.  The
constructor switchRegion carries that terminating jump when the
boundsCheckNode is present. -/
inductive NodeData where
  | basicNode
  | ordinaryRegion
  | switchRegion (boundsCheckJump : Option StmtId)
deriving DecidableEq, Repr

/-- Inputs of one LivenessAnalyzer run: the function (census statement and
term lists, return statement list), its dataflow, the architecture
classification, the region graph, the hooks and the signatures.  Matches
the constructor arguments of LivenessAnalyzer.  Terms referenced by the
function are the ids below numTerms. -/
structure Input where
  numTerms : Nat
  term : TermId → TermData
  stmt : StmtId → StmtData
  censusStatements : List StmtId
  censusTerms : List TermId
  returns : List StmtId
  graphNodes : List NodeData
  isGlobalMemory : MemoryLocation → Bool
  dfMemLoc : TermId → Option MemoryLocation
  dfDefs : TermId → List Chunk
  functionCalleeId : Option CalleeId
  callCalleeId : StmtId → Option CalleeId
  getSignature : CalleeId → Option Signature
  callHook : StmtId → Option (MemoryLocation → TermId)
  returnHook : StmtId → Option (MemoryLocation → TermId)

/-- Modelled from the spec: the Liveness artifact is a set of live terms
(here the list of marked ids) and the analyzer also owns a log sink for the
warnings of the default switch branches (here a counter). -/
structure AState where
  live : List TermId
  warnings : Nat
deriving DecidableEq, Repr

/-- Emission of one ncWarning message. -/
def AState.warn (st : AState) : AState :=
  { st with warnings := st.warnings + 1 }

/-- Body of LivenessAnalyzer::propagateLiveness, with the recursive calls to
makeLive abstracted into the continuation mk; the switch on the term kind
is translated branch for branch.  Direction is two-valued (read or write),
so the read branch is the else branch of the isWrite test. -/
def propagateLivenessWith (p : Input) (mk : AState → TermId → AState)
    (st : AState) (t : TermId) : AState :=
  match (p.term t).kind with
  | .intConst => st
  | .intrinsic => st
  | .undefined => st
  | .memoryLocationAccess _ =>
    if (p.term t).isWrite then
      match (p.term t).source with
      | some s => mk st s
      | none => st
    else
      (p.dfDefs t).foldl (fun acc c => c.definitions.foldl mk acc) st
  | .dereference a =>
    let st1 :=
      if (p.term t).isWrite then
        match (p.term t).source with
        | some s => mk st s
        | none => st
      else
        (p.dfDefs t).foldl (fun acc c => c.definitions.foldl mk acc) st
    if (p.dfMemLoc t).isNone then mk st1 a else st1
  | .unaryOperator o => mk st o
  | .binaryOperator l r => mk (mk st l) r
  | .choice pr df =>
    if (p.dfDefs pr).isEmpty then mk st df else mk st pr
  | .unsupported => st.warn

/-- LivenessAnalyzer::makeLive on a non-null term: if the term is already
live do nothing, else mark it live and propagate.  The C++ recursion
terminates because every nested call first inserts a new term into the
finite liveness set; the fuel argument mirrors that bound, and analysis
entry points pass numTerms + 1, which the closure theorems show is never
exhausted on well-formed inputs. -/
def makeLive (p : Input) : Nat → AState → TermId → AState
  | 0, st, _ => st
  | fuel + 1, st, t =>
    if t ∈ st.live then st
    else propagateLivenessWith p (makeLive p fuel) { st with live := t :: st.live } t

/-- Fuel passed by the analysis entry points. -/
def analyzeFuel (p : Input) : Nat := p.numTerms + 1

/-- makeLive as called from the seeding code. -/
def makeLiveTop (p : Input) (st : AState) (t : TermId) : AState :=
  makeLive p (analyzeFuel p) st t

/-- LivenessAnalyzer::propagateLiveness at a given recursion budget. -/
def propagateLiveness (p : Input) (fuel : Nat) : AState → TermId → AState :=
  propagateLivenessWith p (makeLive p fuel)

/-- Abort outcomes of the analyzer; nullTermAssert models the failure of
the assertion at the top of LivenessAnalyzer::makeLive when the argument
term pointer is null. -/
inductive LAbort where
  | nullTermAssert
deriving DecidableEq, Repr

/-- LivenessAnalyzer::makeLive with its actual C++ signature: the argument
is a possibly null pointer and the function first asserts it is not null,
aborting the run otherwise. -/
def makeLiveP (p : Input) (fuel : Nat) (st : AState) (t : Option TermId) :
    Except LAbort AState :=
  match t with
  | none => Except.error LAbort.nullTermAssert
  | some t => Except.ok (makeLive p fuel st t)

/-- The jumps collected from the region graph walk in
LivenessAnalyzer::analyze: for every region that is a Switch with a non-null
boundsCheckNode, the terminating jump of that node. -/
def boundsCheckJumps (p : Input) : List StmtId :=
  p.graphNodes.filterMap (fun n =>
    match n with
    | .switchRegion (some j) => some j
    | _ => none)

/-- The deadJumps list of the analyzer: the collected jumps, sorted
(std::sort over the stable identities) so that membership can be tested by
binary search. -/
def deadJumps (p : Input) : List StmtId :=
  List.insertionSort (fun a b => a ≤ b) (boundsCheckJumps p)

/-- Seeding of one optional term reference: the null checks guarding the
makeLive calls of the Jump branch of computeLiveness. -/
def optSeed (p : Input) (st : AState) (o : Option TermId) : AState :=
  match o with
  | some c => makeLiveTop p st c
  | none => st

/-- LivenessAnalyzer::computeLiveness on a Statement: the per-statement
seeding switch.  The binary search of the sorted dead jump list is the
membership test on dj. -/
def computeLivenessStmt (p : Input) (dj : List StmtId) (st : AState) (s : StmtId) :
    AState :=
  match p.stmt s with
  | .comment => st
  | .inlineAssembly => st
  | .assignment => st
  | .kill => st
  | .jump condition thenAddress elseAddress =>
    if s ∈ dj then st
    else optSeed p (optSeed p (optSeed p st condition) thenAddress) elseAddress
  | .call target =>
    let st1 := makeLiveTop p st target
    match p.callCalleeId s with
    | some cid =>
      match p.getSignature cid with
      | some sig =>
        match p.callHook s with
        | some ch => sig.arguments.foldl (fun acc loc => makeLiveTop p acc (ch loc)) st1
        | none => st1
      | none => st1
    | none => st1
  | .ret => st
  | .unsupported => st.warn

/-- LivenessAnalyzer::computeLiveness on a Term: the per-term root seeding
switch.  A write MemoryLocationAccess is seeded when the architecture
classifies its location as global memory; a write Dereference is seeded
when its dataflow-resolved location is absent or global. -/
def computeLivenessTerm (p : Input) (st : AState) (t : TermId) : AState :=
  match (p.term t).kind with
  | .intConst => st
  | .intrinsic => st
  | .undefined => st
  | .memoryLocationAccess loc =>
    if (p.term t).isWrite then
      if p.isGlobalMemory loc then makeLiveTop p st t else st
    else st
  | .dereference _ =>
    if (p.term t).isWrite then
      match p.dfMemLoc t with
      | none => makeLiveTop p st t
      | some ml => if p.isGlobalMemory ml then makeLiveTop p st t else st
    else st
  | .unaryOperator _ => st
  | .binaryOperator _ _ => st
  | .choice _ _ => st
  | .unsupported => st.warn

/-- The statement loop of LivenessAnalyzer::analyze over the census. -/
def seedStatements (p : Input) (dj : List StmtId) (st : AState) : AState :=
  p.censusStatements.foldl (computeLivenessStmt p dj) st

/-- The term loop of LivenessAnalyzer::analyze over the census. -/
def seedTerms (p : Input) (st : AState) : AState :=
  p.censusTerms.foldl (computeLivenessTerm p) st

/-- The signature return value seeding at the end of
LivenessAnalyzer::analyze: when the CalleeId of the analyzed function has a
signature with a return value, every Return statement with a ReturnHook
seeds the return value term of that hook. -/
def seedReturns (p : Input) (st : AState) : AState :=
  match p.functionCalleeId with
  | none => st
  | some cid =>
    match p.getSignature cid with
    | none => st
    | some sig =>
      match sig.returnValue with
      | none => st
      | some rv =>
        p.returns.foldl (fun acc r =>
          match p.returnHook r with
          | some rh => makeLiveTop p acc (rh rv)
          | none => acc) st

/-- LivenessAnalyzer::analyze: compute the dead jumps, seed from the
statement census, seed from the term census, then seed signature return
values. -/
def analyze (p : Input) : AState :=
  seedReturns p (seedTerms p (seedStatements p (deadJumps p) { live := [], warnings := 0 }))

/-- Liveness of the source of a term, as demanded by the write branch of
propagateLiveness: when the term has a source sub-term, that source is in
the set. -/
def sourceLive (p : Input) (L : List TermId) (t : TermId) : Prop :=
  ∀ s, (p.term t).source = some s → s ∈ L

/-- Liveness of all reaching definitions of a term, as demanded by the read
branch of propagateLiveness: every defining term of every chunk is in the
set. -/
def defsLive (p : Input) (L : List TermId) (t : TermId) : Prop :=
  ∀ c ∈ p.dfDefs t, ∀ d ∈ c.definitions, d ∈ L

/-- Propagation obligation of one live term, kind by kind, exactly as
propagateLiveness discharges it: reads of the two memory access kinds
propagate to reaching definitions, writes to the source, an unresolved
Dereference also to its address, operators to their operands, and a Choice
to the preferred term when it has definitions and to the default term
otherwise. -/
def RuleHolds (p : Input) (L : List TermId) (t : TermId) : Prop :=
  match (p.term t).kind with
  | .intConst => True
  | .intrinsic => True
  | .undefined => True
  | .unsupported => True
  | .memoryLocationAccess _ =>
    if (p.term t).isWrite then sourceLive p L t else defsLive p L t
  | .dereference a =>
    (if (p.term t).isWrite then sourceLive p L t else defsLive p L t) ∧
    ((p.dfMemLoc t).isNone = true → a ∈ L)
  | .unaryOperator o => o ∈ L
  | .binaryOperator l r => l ∈ L ∧ r ∈ L
  | .choice pr df =>
    if (p.dfDefs pr).isEmpty then df ∈ L else pr ∈ L

/-- Closure of a liveness set under the propagation rules. -/
def Closed (p : Input) (L : List TermId) : Prop :=
  ∀ t ∈ L, RuleHolds p L t

/-- Propagation obligation in the literal wording of the spec claim, where
the reaching definition rule binds every live read term and the source rule
every live write term, regardless of kind. -/
def ClaimRule (p : Input) (L : List TermId) (t : TermId) : Prop :=
  (∀ l r, (p.term t).kind = .binaryOperator l r → l ∈ L ∧ r ∈ L) ∧
  (∀ o, (p.term t).kind = .unaryOperator o → o ∈ L) ∧
  (∀ pr df, (p.term t).kind = .choice pr df →
    ((p.dfDefs pr).isEmpty = false → pr ∈ L) ∧ ((p.dfDefs pr).isEmpty = true → df ∈ L)) ∧
  ((p.term t).isWrite = false → defsLive p L t) ∧
  ((p.term t).isWrite = true → sourceLive p L t) ∧
  (∀ a, (p.term t).kind = .dereference a → p.dfMemLoc t = none → a ∈ L)

/-- Relation between the state before and after one analysis step: the
live set only grows, and every newly live term satisfies its propagation
obligation with respect to the resulting set. -/
def LiveStep (p : Input) (st r : AState) : Prop :=
  (∀ x ∈ st.live, x ∈ r.live) ∧
  (∀ u ∈ r.live, u ∈ st.live ∨ RuleHolds p r.live u)

/-- Bound check on the sub-term references of one term. -/
def childrenOk (p : Input) (t : TermId) : Bool :=
  (match (p.term t).source with
   | some s => decide (s < p.numTerms)
   | none => true) &&
  (match (p.term t).kind with
   | .dereference a => decide (a < p.numTerms)
   | .unaryOperator o => decide (o < p.numTerms)
   | .binaryOperator l r => decide (l < p.numTerms) && decide (r < p.numTerms)
   | .choice pr df => decide (pr < p.numTerms) && decide (df < p.numTerms)
   | _ => true)

/-- Bound check on the reaching definitions of one term. -/
def defsOk (p : Input) (t : TermId) : Bool :=
  (p.dfDefs t).all (fun c => c.definitions.all (fun d => decide (d < p.numTerms)))

/-- Bound check on the term references of one statement. -/
def stmtRefsOk (p : Input) (s : StmtId) : Bool :=
  match p.stmt s with
  | .jump condition thenAddress elseAddress =>
    (match condition with | some c => decide (c < p.numTerms) | none => true) &&
    (match thenAddress with | some a => decide (a < p.numTerms) | none => true) &&
    (match elseAddress with | some a => decide (a < p.numTerms) | none => true)
  | .call target => decide (target < p.numTerms)
  | _ => true

/-- Bound check on the argument terms the call hook of a statement can
produce for the signature of its callee. -/
def callHookOk (p : Input) (s : StmtId) : Bool :=
  match p.callCalleeId s with
  | none => true
  | some cid =>
    match p.getSignature cid with
    | none => true
    | some sig =>
      match p.callHook s with
      | none => true
      | some ch => sig.arguments.all (fun loc => decide (ch loc < p.numTerms))

/-- Bound check on the return value terms the return hooks can produce. -/
def returnSeedOk (p : Input) : Bool :=
  match p.functionCalleeId with
  | none => true
  | some cid =>
    match p.getSignature cid with
    | none => true
    | some sig =>
      match sig.returnValue with
      | none => true
      | some rv =>
        p.returns.all (fun r =>
          match p.returnHook r with
          | some rh => decide (rh rv < p.numTerms)
          | none => true)

/-- Well-formedness of the term graph side of an input: every sub-term
reference and every reaching definition of an id below numTerms is again
below numTerms. -/
def WFterms (p : Input) : Prop :=
  ∀ t, t < p.numTerms → childrenOk p t = true ∧ defsOk p t = true

/-- Well-formedness of a whole analyzer input: the term graph is bounded
and so is every id the seeding phases can pass to makeLive. -/
def WF (p : Input) : Prop :=
  WFterms p ∧
  (∀ t ∈ p.censusTerms, t < p.numTerms) ∧
  (∀ s ∈ p.censusStatements, stmtRefsOk p s = true ∧ callHookOk p s = true) ∧
  returnSeedOk p = true

instance (p : Input) : Decidable (WFterms p) := by
  unfold WFterms
  infer_instance

instance (p : Input) : Decidable (WF p) := by
  unfold WF WFterms
  infer_instance

/-- Observable events of one MasterAnalyzer::decompile run: writes of the
Context artifact slots, the per-function analysis steps of the bulk phases,
and the polls of the cancellation token. -/
inductive Ev where
  | setProgram
  | setFunctions
  | setSignatures
  | setConventions
  | setHooks
  | setDataflows
  | setVariables
  | setGraphs
  | setLivenesses
  | setTypes
  | setTree
  | setTermToFunction
  | funcDataflow (i : Nat)
  | funcStructural (i : Nat)
  | funcLiveness (i : Nat)
  | poll
deriving DecidableEq, Repr

/-- Write counters of the Context slots. -/
structure Counts where
  program : Nat
  functions : Nat
  signatures : Nat
  conventions : Nat
  hooks : Nat
  dataflows : Nat
  vars : Nat
  graphs : Nat
  livenesses : Nat
  types : Nat
  tree : Nat
  termToFunction : Nat
deriving DecidableEq, Repr

/-- Effect of one event on the slot write counters. -/
def bump (e : Ev) (k : Counts) : Counts :=
  match e with
  | .setProgram => { k with program := k.program + 1 }
  | .setFunctions => { k with functions := k.functions + 1 }
  | .setSignatures => { k with signatures := k.signatures + 1 }
  | .setConventions => { k with conventions := k.conventions + 1 }
  | .setHooks => { k with hooks := k.hooks + 1 }
  | .setDataflows => { k with dataflows := k.dataflows + 1 }
  | .setVariables => { k with vars := k.vars + 1 }
  | .setGraphs => { k with graphs := k.graphs + 1 }
  | .setLivenesses => { k with livenesses := k.livenesses + 1 }
  | .setTypes => { k with types := k.types + 1 }
  | .setTree => { k with tree := k.tree + 1 }
  | .setTermToFunction => { k with termToFunction := k.termToFunction + 1 }
  | .funcDataflow _ => k
  | .funcStructural _ => k
  | .funcLiveness _ => k
  | .poll => k

/-- Abstract Context of the controller: the slot write counters (a slot is
present when its counter is positive) and the event trace of the run. -/
structure Cx where
  counts : Counts
  trace : List Ev
deriving DecidableEq, Repr

/-- Record one event. -/
def Cx.emit (c : Cx) (e : Ev) : Cx :=
  { counts := bump e c.counts, trace := c.trace ++ [e] }

/-- Fresh Context at the start of a decompilation run. -/
def Cx.init : Cx :=
  { counts := ⟨0, 0, 0, 0, 0, 0, 0, 0, 0, 0, 0, 0⟩, trace := [] }

/-- MasterAnalyzer::createProgram: installs the IR program. -/
def createProgramPh (c : Cx) : Cx := c.emit .setProgram

/-- MasterAnalyzer::createFunctions: generates functions, names each one,
and installs the Functions slot. -/
def createFunctionsPh (c : Cx) : Cx := c.emit .setFunctions

/-- Body of the per-function loop of MasterAnalyzer::dataflowAnalysis:
analyze one function, then poll the cancellation token. -/
def dfStep (c : Cx) (i : Nat) : Cx := (c.emit (.funcDataflow i)).emit .poll

/-- MasterAnalyzer::dataflowAnalysis (whole-program overload): bootstrap
empty Signatures and Conventions when absent, build Hooks over the two
stores, install a fresh Dataflows map, then run the per-function loop. -/
def dataflowAnalysisPh (funcs : List Nat) (c : Cx) : Cx :=
  let c1 := if c.counts.signatures = 0 then c.emit .setSignatures else c
  let c2 := if c1.counts.conventions = 0 then c1.emit .setConventions else c1
  let c3 := (c2.emit .setHooks).emit .setDataflows
  funcs.foldl dfStep c3

/-- MasterAnalyzer::reconstructSignatures: runs the SignatureAnalyzer into
a fresh Signatures store and installs it in the Context. -/
def reconstructSignaturesPh (c : Cx) : Cx := c.emit .setSignatures

/-- MasterAnalyzer::reconstructVariables. -/
def reconstructVariablesPh (c : Cx) : Cx := c.emit .setVariables

/-- Body of the per-function loop of MasterAnalyzer::structuralAnalysis. -/
def stStep (c : Cx) (i : Nat) : Cx := (c.emit (.funcStructural i)).emit .poll

/-- MasterAnalyzer::structuralAnalysis: installs the Graphs map, then runs
the per-function loop, polling after each function. -/
def structuralAnalysisPh (funcs : List Nat) (c : Cx) : Cx :=
  funcs.foldl stStep (c.emit .setGraphs)

/-- Body of the per-function loop of MasterAnalyzer::livenessAnalysis; the
source loop contains no cancellation poll. -/
def lvStep (c : Cx) (i : Nat) : Cx := c.emit (.funcLiveness i)

/-- MasterAnalyzer::livenessAnalysis: installs the Livenesses map, then
runs the per-function loop. -/
def livenessAnalysisPh (funcs : List Nat) (c : Cx) : Cx :=
  funcs.foldl lvStep (c.emit .setLivenesses)

/-- MasterAnalyzer::reconstructTypes. -/
def reconstructTypesPh (c : Cx) : Cx := c.emit .setTypes

/-- MasterAnalyzer::generateTree. -/
def generateTreePh (c : Cx) : Cx := c.emit .setTree

/-- MasterAnalyzer::computeTermToFunctionMapping. -/
def computeTermToFunctionMappingPh (c : Cx) : Cx := c.emit .setTermToFunction

/-- One cancellation poll between phases of decompile. -/
def pollPh (c : Cx) : Cx := c.emit .poll

/-- MasterAnalyzer::decompile: the fixed phase sequence, polling the
cancellation token after each phase.  The tree checking phase is behind the
NC_TREE_CHECKS build switch and is not part of the default build. -/
def decompile (funcs : List Nat) : Cx :=
  let c := createProgramPh Cx.init
  let c := pollPh c
  let c := createFunctionsPh c
  let c := pollPh c
  let c := dataflowAnalysisPh funcs c
  let c := pollPh c
  let c := reconstructSignaturesPh c
  let c := pollPh c
  let c := dataflowAnalysisPh funcs c
  let c := pollPh c
  let c := reconstructVariablesPh c
  let c := pollPh c
  let c := structuralAnalysisPh funcs c
  let c := pollPh c
  let c := livenessAnalysisPh funcs c
  let c := pollPh c
  let c := reconstructTypesPh c
  let c := pollPh c
  let c := generateTreePh c
  let c := pollPh c
  let c := computeTermToFunctionMappingPh c
  pollPh c

/-- Events emitted by the dataflow per-function loop: one analysis step and
one poll per function. -/
def dfLoopEvs : List Nat → List Ev
  | [] => []
  | i :: rest => Ev.funcDataflow i :: Ev.poll :: dfLoopEvs rest

/-- Events emitted by the structural analysis per-function loop. -/
def stLoopEvs : List Nat → List Ev
  | [] => []
  | i :: rest => Ev.funcStructural i :: Ev.poll :: stLoopEvs rest

/-- Events emitted by the liveness per-function loop: no polls. -/
def lvLoopEvs : List Nat → List Ev
  | [] => []
  | i :: rest => Ev.funcLiveness i :: lvLoopEvs rest

/-- Recognizer of per-function dataflow events. -/
def isFuncDataflowEv : Ev → Bool
  | .funcDataflow _ => true
  | _ => false

/-- Recognizer of per-function structural analysis events. -/
def isFuncStructuralEv : Ev → Bool
  | .funcStructural _ => true
  | _ => false

/-- Recognizer of per-function liveness events. -/
def isFuncLivenessEv : Ev → Bool
  | .funcLiveness _ => true
  | _ => false

/-- Scan of an event list tracking whether some per-function event has been
seen with no poll since; returns none when a second per-function event is
reached before a poll, and otherwise the final tracking flag. -/
def scanPending (isF : Ev → Bool) : List Ev → Bool → Option Bool
  | [], pending => some pending
  | e :: rest, pending =>
    if isF e then
      if pending then none else scanPending isF rest true
    else if e = Ev.poll then scanPending isF rest false
    else scanPending isF rest pending

/-- The trace polls the cancellation token between any two consecutive
per-function events of the given recognizer. -/
def pollsBetween (isF : Ev → Bool) (evs : List Ev) : Bool :=
  (scanPending isF evs false).isSome

/-!
Function naming (MasterAnalyzer::pickFunctionName).  The demangler, the
symbol lookup and Tree::cleanName are collaborators; the naming logic
itself is translated from the source.  The Qt hexadecimal formatting
QString::arg(value, 0, 16) is modelled from the spec: lowercase
hexadecimal digits with no leading zeros.
-/

/-- Hexadecimal digit character, lowercase. -/
def hexChar (d : Nat) : Char :=
  if d < 10 then Char.ofNat (48 + d) else Char.ofNat (87 + d)

/-- Accumulator loop producing the hexadecimal digits of n, most
significant first, in front of acc. -/
def toHexAux (n : Nat) (acc : List Char) : List Char :=
  if h : n = 0 then acc
  else toHexAux (n / 16) (hexChar (n % 16) :: acc)
decreasing_by exact Nat.div_lt_self (Nat.pos_of_ne_zero h) (by omega)

/-- Modelled from the spec: the base 16 rendering used by
QString::arg(value, 0, 16): lowercase hexadecimal with no leading zeros. -/
def toHex (n : Nat) : String :=
  if n = 0 then "0" else String.mk (toHexAux n [])

/-- Modelled from the spec: QString::contains on one character, as a scan
of the character list. -/
def containsChar (s : String) (c : Char) : Bool :=
  s.data.contains c

/-- Test whether a character is a lowercase hexadecimal digit. -/
def isLowerHexDigit (c : Char) : Bool :=
  (48 ≤ c.toNat && c.toNat ≤ 57) || (97 ≤ c.toNat && c.toNat ≤ 102)

/-- Module surface used by the name picker: symbol lookup by address and
the demangler (which returns its input when the string is not mangled). -/
structure NamingModule where
  getName : Nat → String
  demangle : String → String

/-- Function surface used by the name picker: the optional entry basic
block with its optional address, and the per-run unique identity of the
function object (the C++ object address). -/
structure FunctionN where
  entry : Option (Option Nat)
  objectId : Nat

/-- MasterAnalyzer::pickFunctionName, translated branch for branch;
cleanName abstracts Tree::cleanName.  Returns the chosen name and the list
of strings appended to the function comment, in order. -/
def pickFunctionName (cleanName : String → String) (m : NamingModule)
    (f : FunctionN) : String × List String :=
  match f.entry with
  | some (some addr) =>
    let name := m.getName addr
    if name ≠ "" then
      let clean := cleanName name
      let com1 := if name ≠ clean then [name] else []
      let demangledName := m.demangle name
      let com2 := if containsChar demangledName (Char.ofNat 40) then [demangledName] else []
      (clean, com1 ++ com2)
    else
      ("func_" ++ toHex addr, [])
  | _ => ("func_noentry_" ++ toHex f.objectId, [])

/-- Concrete analyzer input exercising the seeding rules: a call with a
one-argument signature, a live jump, a dead jump (bounds check of a Switch
region), a global memory write with a source, an unresolved pointer write,
and a function signature with a return value. -/
def exSeed : Input where
  numTerms := 10
  term := fun t =>
    if t = 1 then ⟨.memoryLocationAccess ⟨1, 0, 32⟩, false, none⟩
    else if t = 5 then ⟨.memoryLocationAccess ⟨1, 8, 32⟩, false, none⟩
    else if t = 6 then ⟨.memoryLocationAccess ⟨2, 0, 32⟩, true, some 8⟩
    else if t = 7 then ⟨.dereference 9, true, none⟩
    else ⟨.intConst, false, none⟩
  stmt := fun s =>
    if s = 0 then .call 0
    else if s = 1 then .jump (some 2) (some 3) (some 4)
    else if s = 2 then .jump (some 2) none none
    else if s = 3 then .ret
    else .unsupported
  censusStatements := [0, 1, 2, 3]
  censusTerms := [0, 1, 2, 3, 4, 5, 6, 7, 8, 9]
  returns := [3]
  graphNodes := [.basicNode, .ordinaryRegion, .switchRegion (some 2), .switchRegion none]
  isGlobalMemory := fun loc => decide (loc.domain = 2)
  dfMemLoc := fun _ => none
  dfDefs := fun _ => []
  functionCalleeId := some 1
  callCalleeId := fun s => if s = 0 then some 0 else none
  getSignature := fun cid =>
    if cid = 0 then some ⟨[⟨1, 0, 32⟩], none⟩
    else if cid = 1 then some ⟨[], some ⟨1, 8, 32⟩⟩
    else none
  callHook := fun s => if s = 0 then some (fun _ => 1) else none
  returnHook := fun r => if r = 3 then some (fun _ => 5) else none

/-- Concrete analyzer input where the condition of a dead jump becomes live
through propagation only: a global write whose source is a unary operator
whose operand is the dead jump condition. -/
def exProp : Input where
  numTerms := 4
  term := fun t =>
    if t = 0 then ⟨.memoryLocationAccess ⟨2, 0, 32⟩, true, some 1⟩
    else if t = 1 then ⟨.unaryOperator 2, false, none⟩
    else ⟨.intConst, false, none⟩
  stmt := fun _ => .jump (some 2) none none
  censusStatements := [0]
  censusTerms := [0, 1, 2, 3]
  returns := []
  graphNodes := [.switchRegion (some 0)]
  isGlobalMemory := fun loc => decide (loc.domain = 2)
  dfMemLoc := fun _ => some ⟨0, 0, 32⟩
  dfDefs := fun _ => []
  functionCalleeId := none
  callCalleeId := fun _ => none
  getSignature := fun _ => none
  callHook := fun _ => none
  returnHook := fun _ => none

/-- Concrete analyzer input on which the literal reading of the propagation
claim fails: term 1 is a live read UnaryOperator whose reaching definitions
record names term 3, but the analyzer only propagates to the operand, so
term 3 never becomes live. -/
def exCex : Input where
  numTerms := 4
  term := fun t =>
    if t = 0 then ⟨.memoryLocationAccess ⟨2, 0, 32⟩, true, some 1⟩
    else if t = 1 then ⟨.unaryOperator 2, false, none⟩
    else ⟨.intConst, false, none⟩
  stmt := fun _ => .ret
  censusStatements := []
  censusTerms := [0, 1, 2, 3]
  returns := []
  graphNodes := []
  isGlobalMemory := fun loc => decide (loc.domain = 2)
  dfMemLoc := fun _ => some ⟨0, 0, 32⟩
  dfDefs := fun t => if t = 1 then [⟨[3]⟩] else []
  functionCalleeId := none
  callCalleeId := fun _ => none
  getSignature := fun _ => none
  callHook := fun _ => none
  returnHook := fun _ => none

/-- Concrete module for evaluating the name picker: one known symbol at
address 4096 whose demangling looks like a function signature. -/
def exNamingModule : NamingModule where
  getName := fun a => if a = 4096 then "_Z3fooi" else ""
  demangle := fun s => s ++ "(int)"

/-!
Theorems.  First the controller (claims C1, C2, C3), then the name picker
(claim C9), then the liveness analyzer (claims C4 to C8 and C10).
-/

theorem dfLoop_trace (funcs : List Nat) (c : Cx) :
    (funcs.foldl dfStep c).trace = c.trace ++ dfLoopEvs funcs := by
  induction funcs generalizing c with
  | nil => simp [dfLoopEvs]
  | cons i rest ih => simp [dfLoopEvs, ih, dfStep, Cx.emit]

theorem dfLoop_counts (funcs : List Nat) (c : Cx) :
    (funcs.foldl dfStep c).counts = c.counts := by
  induction funcs generalizing c with
  | nil => rfl
  | cons i rest ih => simp [ih, dfStep, Cx.emit, bump]

theorem stLoop_trace (funcs : List Nat) (c : Cx) :
    (funcs.foldl stStep c).trace = c.trace ++ stLoopEvs funcs := by
  induction funcs generalizing c with
  | nil => simp [stLoopEvs]
  | cons i rest ih => simp [stLoopEvs, ih, stStep, Cx.emit]

theorem stLoop_counts (funcs : List Nat) (c : Cx) :
    (funcs.foldl stStep c).counts = c.counts := by
  induction funcs generalizing c with
  | nil => rfl
  | cons i rest ih => simp [ih, stStep, Cx.emit, bump]

theorem lvLoop_trace (funcs : List Nat) (c : Cx) :
    (funcs.foldl lvStep c).trace = c.trace ++ lvLoopEvs funcs := by
  induction funcs generalizing c with
  | nil => simp [lvLoopEvs]
  | cons i rest ih => simp [lvLoopEvs, ih, lvStep, Cx.emit]

theorem lvLoop_counts (funcs : List Nat) (c : Cx) :
    (funcs.foldl lvStep c).counts = c.counts := by
  induction funcs generalizing c with
  | nil => rfl
  | cons i rest ih => simp [ih, lvStep, Cx.emit, bump]

/-- Shape of the event trace of one decompile run, for any function list. -/
theorem decompile_trace (funcs : List Nat) :
    (decompile funcs).trace =
      [Ev.setProgram, Ev.poll, Ev.setFunctions, Ev.poll, Ev.setSignatures,
        Ev.setConventions, Ev.setHooks, Ev.setDataflows]
      ++ (dfLoopEvs funcs
      ++ ([Ev.poll, Ev.setSignatures, Ev.poll, Ev.setHooks, Ev.setDataflows]
      ++ (dfLoopEvs funcs
      ++ ([Ev.poll, Ev.setVariables, Ev.poll, Ev.setGraphs]
      ++ (stLoopEvs funcs
      ++ ([Ev.poll, Ev.setLivenesses]
      ++ (lvLoopEvs funcs
      ++ [Ev.poll, Ev.setTypes, Ev.poll, Ev.setTree, Ev.poll,
          Ev.setTermToFunction, Ev.poll]))))))) := by
  simp [decompile, createProgramPh, createFunctionsPh, dataflowAnalysisPh,
    reconstructSignaturesPh, reconstructVariablesPh, structuralAnalysisPh,
    livenessAnalysisPh, reconstructTypesPh, generateTreePh,
    computeTermToFunctionMappingPh, pollPh, Cx.emit, Cx.init, bump,
    dfLoop_trace, dfLoop_counts, stLoop_trace, stLoop_counts, lvLoop_trace,
    lvLoop_counts]

theorem not_mem_dfLoopEvs {e : Ev} (hf : ∀ i, e ≠ Ev.funcDataflow i)
    (hp : e ≠ Ev.poll) (funcs : List Nat) : e ∉ dfLoopEvs funcs := by
  induction funcs with
  | nil => simp [dfLoopEvs]
  | cons i rest ih => simp [dfLoopEvs, hf i, hp, ih]

theorem not_mem_stLoopEvs {e : Ev} (hf : ∀ i, e ≠ Ev.funcStructural i)
    (hp : e ≠ Ev.poll) (funcs : List Nat) : e ∉ stLoopEvs funcs := by
  induction funcs with
  | nil => simp [stLoopEvs]
  | cons i rest ih => simp [stLoopEvs, hf i, hp, ih]

theorem not_mem_lvLoopEvs {e : Ev} (hf : ∀ i, e ≠ Ev.funcLiveness i)
    (funcs : List Nat) : e ∉ lvLoopEvs funcs := by
  induction funcs with
  | nil => simp [lvLoopEvs]
  | cons i rest ih => simp [lvLoopEvs, hf i, ih]

theorem mem_dfLoopEvs {e : Ev} {funcs : List Nat} (h : e ∈ dfLoopEvs funcs) :
    (∃ i, e = Ev.funcDataflow i) ∨ e = Ev.poll := by
  induction funcs with
  | nil => simp [dfLoopEvs] at h
  | cons i rest ih =>
    simp only [dfLoopEvs, List.mem_cons] at h
    rcases h with h | h | h
    · exact Or.inl ⟨i, h⟩
    · exact Or.inr h
    · exact ih h

theorem mem_stLoopEvs {e : Ev} {funcs : List Nat} (h : e ∈ stLoopEvs funcs) :
    (∃ i, e = Ev.funcStructural i) ∨ e = Ev.poll := by
  induction funcs with
  | nil => simp [stLoopEvs] at h
  | cons i rest ih =>
    simp only [stLoopEvs, List.mem_cons] at h
    rcases h with h | h | h
    · exact Or.inl ⟨i, h⟩
    · exact Or.inr h
    · exact ih h

theorem mem_lvLoopEvs {e : Ev} {funcs : List Nat} (h : e ∈ lvLoopEvs funcs) :
    ∃ i, e = Ev.funcLiveness i := by
  induction funcs with
  | nil => simp [lvLoopEvs] at h
  | cons i rest ih =>
    simp only [lvLoopEvs, List.mem_cons] at h
    rcases h with h | h
    · exact ⟨i, h⟩
    · exact ih h

/-- C1 claims the Signatures store is never replaced once the first Hooks
object exists; the run with no functions already refutes it: the trace
contains a setSignatures event (from reconstructSignatures, which installs
a freshly built Signatures object) after the first setHooks event. -/
theorem claim_C1_counterexample :
    ∃ pre post : List Ev,
      (decompile []).trace = pre ++ Ev.setHooks :: post ∧
      Ev.setHooks ∉ pre ∧ Ev.setSignatures ∈ post := by
  refine ⟨[Ev.setProgram, Ev.poll, Ev.setFunctions, Ev.poll, Ev.setSignatures,
    Ev.setConventions],
    [Ev.setDataflows, Ev.poll, Ev.setSignatures, Ev.poll, Ev.setHooks,
      Ev.setDataflows, Ev.poll, Ev.setVariables, Ev.poll, Ev.setGraphs,
      Ev.poll, Ev.setLivenesses, Ev.poll, Ev.setTypes, Ev.poll, Ev.setTree,
      Ev.poll, Ev.setTermToFunction, Ev.poll], ?_, ?_, ?_⟩ <;> decide

/-- C1 (amended): the Signatures store is replaced once more after the
first Hooks construction, by reconstructSignatures; decompile then
reconstructs Hooks in the second dataflow phase, and after that last
setHooks event neither the Signatures nor the Conventions store is ever
replaced again. -/
theorem claim_C1 (funcs : List Nat) :
    ∃ pre post : List Ev,
      (decompile funcs).trace = pre ++ Ev.setHooks :: post ∧
      Ev.setHooks ∉ post ∧ Ev.setSignatures ∉ post ∧ Ev.setConventions ∉ post := by
  refine ⟨[Ev.setProgram, Ev.poll, Ev.setFunctions, Ev.poll, Ev.setSignatures,
      Ev.setConventions, Ev.setHooks, Ev.setDataflows]
      ++ dfLoopEvs funcs ++ [Ev.poll, Ev.setSignatures, Ev.poll],
    Ev.setDataflows :: (dfLoopEvs funcs
      ++ ([Ev.poll, Ev.setVariables, Ev.poll, Ev.setGraphs]
      ++ (stLoopEvs funcs
      ++ ([Ev.poll, Ev.setLivenesses]
      ++ (lvLoopEvs funcs
      ++ [Ev.poll, Ev.setTypes, Ev.poll, Ev.setTree, Ev.poll,
          Ev.setTermToFunction, Ev.poll]))))), ?_, ?_, ?_, ?_⟩
  · rw [decompile_trace]; simp
  · have h1 := not_mem_dfLoopEvs (e := Ev.setHooks) (fun i h => Ev.noConfusion h)
      (fun h => Ev.noConfusion h) funcs
    have h2 := not_mem_stLoopEvs (e := Ev.setHooks) (fun i h => Ev.noConfusion h)
      (fun h => Ev.noConfusion h) funcs
    have h3 := not_mem_lvLoopEvs (e := Ev.setHooks) (fun i h => Ev.noConfusion h) funcs
    simp [List.mem_cons, List.mem_append, h1, h2, h3]
  · have h1 := not_mem_dfLoopEvs (e := Ev.setSignatures) (fun i h => Ev.noConfusion h)
      (fun h => Ev.noConfusion h) funcs
    have h2 := not_mem_stLoopEvs (e := Ev.setSignatures) (fun i h => Ev.noConfusion h)
      (fun h => Ev.noConfusion h) funcs
    have h3 := not_mem_lvLoopEvs (e := Ev.setSignatures) (fun i h => Ev.noConfusion h) funcs
    simp [List.mem_cons, List.mem_append, h1, h2, h3]
  · have h1 := not_mem_dfLoopEvs (e := Ev.setConventions) (fun i h => Ev.noConfusion h)
      (fun h => Ev.noConfusion h) funcs
    have h2 := not_mem_stLoopEvs (e := Ev.setConventions) (fun i h => Ev.noConfusion h)
      (fun h => Ev.noConfusion h) funcs
    have h3 := not_mem_lvLoopEvs (e := Ev.setConventions) (fun i h => Ev.noConfusion h) funcs
    simp [List.mem_cons, List.mem_append, h1, h2, h3]

/-- C2 claims every slot other than Signatures, Conventions and Hooks is
written at most once, naming Dataflows explicitly; but dataflowAnalysis
installs a fresh Dataflows map unconditionally and decompile runs it
twice, so the Dataflows slot is written twice even with no functions. -/
theorem claim_C2_counterexample : ¬ ((decompile []).counts.dataflows ≤ 1) := by
  decide

/-- C2 (amended): during one decompile run every Context artifact slot is
written exactly once, except Signatures and Hooks (written twice),
Conventions (written once, on first dataflow entry) and Dataflows, which is
also written twice because each of the two dataflow phases installs a
fresh Dataflows map. -/
theorem claim_C2 (funcs : List Nat) :
    (decompile funcs).counts = ⟨1, 1, 2, 1, 2, 2, 1, 1, 1, 1, 1, 1⟩ := by
  simp [decompile, createProgramPh, createFunctionsPh, dataflowAnalysisPh,
    reconstructSignaturesPh, reconstructVariablesPh, structuralAnalysisPh,
    livenessAnalysisPh, reconstructTypesPh, generateTreePh,
    computeTermToFunctionMappingPh, pollPh, Cx.emit, Cx.init, bump,
    dfLoop_counts, stLoop_counts, lvLoop_counts]

/-- Evaluation of the amended C1 statement on a run with one function. -/
theorem claim_C1_witness :
    ∃ pre post : List Ev,
      (decompile [0]).trace = pre ++ Ev.setHooks :: post ∧
      Ev.setHooks ∉ post ∧ Ev.setSignatures ∉ post ∧ Ev.setConventions ∉ post :=
  claim_C1 [0]

/-- Evaluation of the amended C2 statement on a run with one function. -/
theorem claim_C2_witness :
    (decompile [0]).counts = ⟨1, 1, 2, 1, 2, 2, 1, 1, 1, 1, 1, 1⟩ :=
  claim_C2 [0]

theorem scanPending_append (isF : Ev → Bool) (l₁ l₂ : List Ev) (p : Bool) :
    scanPending isF (l₁ ++ l₂) p =
      (scanPending isF l₁ p).bind (fun q => scanPending isF l₂ q) := by
  induction l₁ generalizing p with
  | nil => simp [scanPending]
  | cons e rest ih =>
    by_cases h1 : isF e
    · by_cases h2 : p <;> simp [scanPending, h1, h2, ih]
    · rw [Bool.not_eq_true] at h1
      by_cases h2 : e = Ev.poll
      · subst h2
        simp [scanPending, h1, ih]
      · simp [scanPending, h1, h2, ih]

theorem scanPending_false_append {isF : Ev → Bool} {l₁ l₂ : List Ev}
    (h₁ : scanPending isF l₁ false = some false)
    (h₂ : scanPending isF l₂ false = some false) :
    scanPending isF (l₁ ++ l₂) false = some false := by
  rw [scanPending_append, h₁]
  simpa using h₂

theorem scanPending_nonF {isF : Ev → Bool} {l : List Ev}
    (h : ∀ e ∈ l, isF e = false) :
    scanPending isF l false = some false := by
  induction l with
  | nil => rfl
  | cons e rest ih =>
    have he : isF e = false := h e (List.mem_cons_self e rest)
    have hr : ∀ x ∈ rest, isF x = false := fun x hx => h x (List.mem_cons_of_mem e hx)
    by_cases h2 : e = Ev.poll
    · subst h2
      simp [scanPending, he, ih hr]
    · simp [scanPending, he, h2, ih hr]

theorem scanPending_dfLoop (funcs : List Nat) :
    scanPending isFuncDataflowEv (dfLoopEvs funcs) false = some false := by
  induction funcs with
  | nil => rfl
  | cons i rest ih => simp [dfLoopEvs, scanPending, isFuncDataflowEv, ih]

theorem scanPending_stLoop (funcs : List Nat) :
    scanPending isFuncStructuralEv (stLoopEvs funcs) false = some false := by
  induction funcs with
  | nil => rfl
  | cons i rest ih => simp [stLoopEvs, scanPending, isFuncStructuralEv, ih]

theorem dfLoop_no_structural (funcs : List Nat) :
    ∀ e ∈ dfLoopEvs funcs, isFuncStructuralEv e = false := by
  intro e he
  rcases mem_dfLoopEvs he with ⟨i, h⟩ | h <;> simp [h, isFuncStructuralEv]

theorem stLoop_no_dataflow (funcs : List Nat) :
    ∀ e ∈ stLoopEvs funcs, isFuncDataflowEv e = false := by
  intro e he
  rcases mem_stLoopEvs he with ⟨i, h⟩ | h <;> simp [h, isFuncDataflowEv]

theorem lvLoop_no_dataflow (funcs : List Nat) :
    ∀ e ∈ lvLoopEvs funcs, isFuncDataflowEv e = false := by
  intro e he
  rcases mem_lvLoopEvs he with ⟨i, h⟩
  simp [h, isFuncDataflowEv]

theorem lvLoop_no_structural (funcs : List Nat) :
    ∀ e ∈ lvLoopEvs funcs, isFuncStructuralEv e = false := by
  intro e he
  rcases mem_lvLoopEvs he with ⟨i, h⟩
  simp [h, isFuncStructuralEv]

/-- C3 claims every per-function subloop of the controller polls the
cancellation token between consecutive functions, including the liveness
loop; but with two functions the trace shows the two liveness steps
adjacent with no poll in between. -/
theorem claim_C3_counterexample :
    pollsBetween isFuncLivenessEv (decompile [0, 1]).trace = false := by
  decide

/-- C3 (amended): the dataflow and structural analysis per-function
subloops of decompile poll the cancellation token between any two
consecutive per-function steps; the liveness subloop does not poll. -/
theorem claim_C3 (funcs : List Nat) :
    pollsBetween isFuncDataflowEv (decompile funcs).trace = true ∧
    pollsBetween isFuncStructuralEv (decompile funcs).trace = true := by
  rw [pollsBetween, pollsBetween, decompile_trace]
  constructor
  · rw [scanPending_false_append (by decide)
      (scanPending_false_append (scanPending_dfLoop funcs)
        (scanPending_false_append (by decide)
          (scanPending_false_append (scanPending_dfLoop funcs)
            (scanPending_false_append (by decide)
              (scanPending_false_append (scanPending_nonF (stLoop_no_dataflow funcs))
                (scanPending_false_append (by decide)
                  (scanPending_false_append (scanPending_nonF (lvLoop_no_dataflow funcs))
                    (by decide))))))))]
    rfl
  · rw [scanPending_false_append (by decide)
      (scanPending_false_append (scanPending_nonF (dfLoop_no_structural funcs))
        (scanPending_false_append (by decide)
          (scanPending_false_append (scanPending_nonF (dfLoop_no_structural funcs))
            (scanPending_false_append (by decide)
              (scanPending_false_append (scanPending_stLoop funcs)
                (scanPending_false_append (by decide)
                  (scanPending_false_append (scanPending_nonF (lvLoop_no_structural funcs))
                    (by decide))))))))]
    rfl

/-- Evaluation of the amended C3 statement on a run with two functions. -/
theorem claim_C3_witness :
    pollsBetween isFuncDataflowEv (decompile [0, 1]).trace = true ∧
    pollsBetween isFuncStructuralEv (decompile [0, 1]).trace = true :=
  claim_C3 [0, 1]

theorem hexChar_isLowerHexDigit {d : Nat} (h : d < 16) :
    isLowerHexDigit (hexChar d) = true := by
  interval_cases d <;> decide

theorem hexChar_ne_zero_char {d : Nat} (h : d < 16) (h0 : d ≠ 0) :
    hexChar d ≠ Char.ofNat 48 := by
  interval_cases d <;> first | exact absurd rfl h0 | decide

theorem toHexAux_digits (n : Nat) :
    ∀ acc, (∀ c ∈ acc, isLowerHexDigit c = true) →
      ∀ c ∈ toHexAux n acc, isLowerHexDigit c = true := by
  induction n using Nat.strong_induction_on with
  | _ n ih =>
    intro acc hacc c hc
    rw [toHexAux] at hc
    by_cases h : n = 0
    · simp only [h, dif_pos] at hc
      exact hacc c hc
    · simp only [dif_neg h] at hc
      refine ih (n / 16) (Nat.div_lt_self (Nat.pos_of_ne_zero h) (by omega)) _ ?_ c hc
      intro x hx
      rcases List.mem_cons.mp hx with hx | hx
      · subst hx
        exact hexChar_isLowerHexDigit (Nat.mod_lt n (by omega))
      · exact hacc x hx

theorem toHexAux_leading (n : Nat) :
    n ≠ 0 → ∀ acc, ∃ d rest, toHexAux n acc = hexChar d :: rest ∧ d ≠ 0 ∧ d < 16 := by
  induction n using Nat.strong_induction_on with
  | _ n ih =>
    intro h0 acc
    rw [toHexAux, dif_neg h0]
    by_cases hq : n / 16 = 0
    · rw [toHexAux, dif_pos hq]
      refine ⟨n % 16, acc, rfl, ?_, Nat.mod_lt n (by omega)⟩
      intro hm
      have : n < 16 := by omega
      omega
    · exact ih (n / 16) (Nat.div_lt_self (Nat.pos_of_ne_zero h0) (by omega)) hq _

/-- Characters of the hexadecimal rendering are lowercase hex digits. -/
theorem toHex_lower (n : Nat) : ∀ c ∈ (toHex n).data, isLowerHexDigit c = true := by
  by_cases h : n = 0
  · subst h
    intro c hc
    rw [toHex, if_pos rfl] at hc
    have hd : ("0").data = [Char.ofNat 48] := rfl
    rw [hd] at hc
    rcases List.mem_singleton.mp hc with rfl
    decide
  · rw [toHex, if_neg h]
    exact toHexAux_digits n [] (by intro c hc; cases hc)

/-- The hexadecimal rendering of a positive number has no leading zero. -/
theorem toHex_no_leading_zero {n : Nat} (h : n ≠ 0) :
    ∀ c, (toHex n).data.head? = some c → c ≠ Char.ofNat 48 := by
  intro c hc
  unfold toHex at hc
  rw [if_neg h] at hc
  obtain ⟨d, rest, heq, hd0, hd16⟩ := toHexAux_leading n h []
  simp only [String.data, heq] at hc
  simp [heq] at hc
  subst hc
  exact hexChar_ne_zero_char hd16 hd0

/-- C9: the name picker decides by a three way case split: a non-empty
symbol at the entry address gives the cleaned symbol as name, appending the
original to the comment when it differs and the demangled form when it
contains an opening parenthesis; an entry address without a symbol gives
func_ followed by the address in lowercase hexadecimal without leading
zeros; no entry address gives func_noentry_ followed by the per-function
unique identity in hexadecimal. -/
theorem claim_C9 (cleanName : String → String) (m : NamingModule) (f : FunctionN) :
    (∀ addr, f.entry = some (some addr) → m.getName addr ≠ "" →
      pickFunctionName cleanName m f =
        (cleanName (m.getName addr),
          (if m.getName addr ≠ cleanName (m.getName addr) then [m.getName addr] else []) ++
          (if containsChar (m.demangle (m.getName addr)) (Char.ofNat 40) then
            [m.demangle (m.getName addr)] else []))) ∧
    (∀ addr, f.entry = some (some addr) → m.getName addr = "" →
      pickFunctionName cleanName m f = ("func_" ++ toHex addr, [])) ∧
    ((∀ addr, f.entry ≠ some (some addr)) →
      pickFunctionName cleanName m f = ("func_noentry_" ++ toHex f.objectId, [])) ∧
    (∀ n, ∀ c ∈ (toHex n).data, isLowerHexDigit c = true) ∧
    (∀ n, n ≠ 0 → ∀ c, (toHex n).data.head? = some c → c ≠ Char.ofNat 48) := by
  refine ⟨?_, ?_, ?_, toHex_lower, fun n hn => toHex_no_leading_zero hn⟩
  · intro addr he hne
    simp [pickFunctionName, he, hne]
  · intro addr he hemp
    simp [pickFunctionName, he, hemp]
  · intro h
    match hf : f.entry with
    | none => simp [pickFunctionName, hf]
    | some none => simp [pickFunctionName, hf]
    | some (some a) => exact absurd hf (h a)

/-- Evaluation of the naming theorem on a concrete module and function with
a known symbol. -/
theorem claim_C9_witness :
    pickFunctionName id exNamingModule ⟨some (some 4096), 9⟩ =
      ("_Z3fooi", ["_Z3fooi(int)"]) := by
  have h := (claim_C9 id exNamingModule ⟨some (some 4096), 9⟩).1 4096 rfl (by decide)
  rw [h]
  decide

/-!
Liveness analyzer lemmas.  The recursion of makeLive terminates because
every nested call first inserts a fresh term; the development tracks the
cardinality of the live set below numTerms to show the fuel passed by the
entry points is never exhausted on well-formed inputs.
-/

theorem foldl_mk_mono {mk : AState → TermId → AState}
    (hmk : ∀ st t, ∀ x ∈ st.live, x ∈ (mk st t).live) :
    ∀ (l : List TermId) (st : AState), ∀ x ∈ st.live, x ∈ (l.foldl mk st).live := by
  intro l
  induction l with
  | nil => intro st x hx; exact hx
  | cons c rest ih => intro st x hx; exact ih (mk st c) x (hmk st c x hx)

theorem foldl_chunks_mono {mk : AState → TermId → AState}
    (hmk : ∀ st t, ∀ x ∈ st.live, x ∈ (mk st t).live) (chunks : List Chunk) (st : AState) :
    ∀ x ∈ st.live, x ∈ (chunks.foldl (fun acc c => c.definitions.foldl mk acc) st).live := by
  induction chunks generalizing st with
  | nil => intro x hx; exact hx
  | cons c rest ih =>
    intro x hx
    exact ih _ x (foldl_mk_mono hmk c.definitions st x hx)

theorem propagateWith_mono {p : Input} {mk : AState → TermId → AState}
    (hmk : ∀ st t, ∀ x ∈ st.live, x ∈ (mk st t).live) (st : AState) (t : TermId) :
    ∀ x ∈ st.live, x ∈ (propagateLivenessWith p mk st t).live := by
  intro x hx
  unfold propagateLivenessWith
  cases hk : (p.term t).kind with
  | intConst => exact hx
  | intrinsic => exact hx
  | undefined => exact hx
  | unsupported => exact hx
  | memoryLocationAccess loc =>
    by_cases hw : (p.term t).isWrite
    · simp only [hw, if_pos]
      cases hs : (p.term t).source with
      | none => exact hx
      | some s => exact hmk st s x hx
    · simp only [hw, if_neg, Bool.false_eq_true, ite_false]
      exact foldl_chunks_mono hmk _ st x hx
  | dereference a =>
    have h1 : ∀ y ∈ st.live,
        y ∈ ((if (p.term t).isWrite then
          match (p.term t).source with
          | some s => mk st s
          | none => st
        else (p.dfDefs t).foldl (fun acc c => c.definitions.foldl mk acc) st)).live := by
      intro y hy
      by_cases hw : (p.term t).isWrite
      · simp only [hw, if_pos]
        cases hs : (p.term t).source with
        | none => exact hy
        | some s => exact hmk st s y hy
      · simp only [hw, Bool.false_eq_true, ite_false]
        exact foldl_chunks_mono hmk _ st y hy
    by_cases hm : (p.dfMemLoc t).isNone
    · simp only [hm, if_pos]
      exact hmk _ a x (h1 x hx)
    · simp only [hm, Bool.false_eq_true, ite_false]
      exact h1 x hx
  | unaryOperator o => exact hmk st o x hx
  | binaryOperator l r => exact hmk _ r x (hmk st l x hx)
  | choice pr df =>
    by_cases hd : (p.dfDefs pr).isEmpty
    · simp only [hd, if_pos]
      exact hmk st df x hx
    · simp only [hd, Bool.false_eq_true, ite_false]
      exact hmk st pr x hx

theorem makeLive_mono (p : Input) :
    ∀ (fuel : Nat) (st : AState) (t : TermId), ∀ x ∈ st.live, x ∈ (makeLive p fuel st t).live := by
  intro fuel
  induction fuel with
  | zero => intro st t x hx; exact hx
  | succ fuel ih =>
    intro st t x hx
    rw [makeLive]
    by_cases hmem : t ∈ st.live
    · rw [if_pos hmem]; exact hx
    · rw [if_neg hmem]
      exact propagateWith_mono ih _ t x (List.mem_cons_of_mem t hx)

theorem makeLive_mem (p : Input) (fuel : Nat) (st : AState) (t : TermId)
    (hfuel : 1 ≤ fuel) : t ∈ (makeLive p fuel st t).live := by
  cases fuel with
  | zero => omega
  | succ fuel =>
    rw [makeLive]
    by_cases hmem : t ∈ st.live
    · rw [if_pos hmem]; exact hmem
    · rw [if_neg hmem]
      exact propagateWith_mono (makeLive_mono p fuel) _ t t (List.mem_cons_self t _)

theorem makeLiveTop_mono (p : Input) (st : AState) (t : TermId) :
    ∀ x ∈ st.live, x ∈ (makeLiveTop p st t).live :=
  makeLive_mono p (analyzeFuel p) st t

theorem makeLiveTop_mem (p : Input) (st : AState) (t : TermId) :
    t ∈ (makeLiveTop p st t).live :=
  makeLive_mem p (analyzeFuel p) st t (by unfold analyzeFuel; omega)

theorem childrenOk_source {p : Input} {t s : TermId} (h : childrenOk p t = true)
    (hs : (p.term t).source = some s) : s < p.numTerms := by
  unfold childrenOk at h
  rw [hs] at h
  simp only [Bool.and_eq_true, decide_eq_true_eq] at h
  exact h.1

theorem childrenOk_unary {p : Input} {t o : TermId} (h : childrenOk p t = true)
    (hk : (p.term t).kind = .unaryOperator o) : o < p.numTerms := by
  unfold childrenOk at h
  rw [hk] at h
  simp only [Bool.and_eq_true, decide_eq_true_eq] at h
  exact h.2

theorem childrenOk_binary {p : Input} {t l r : TermId} (h : childrenOk p t = true)
    (hk : (p.term t).kind = .binaryOperator l r) : l < p.numTerms ∧ r < p.numTerms := by
  unfold childrenOk at h
  rw [hk] at h
  simp only [Bool.and_eq_true, decide_eq_true_eq] at h
  exact h.2

theorem childrenOk_choice {p : Input} {t pr df : TermId} (h : childrenOk p t = true)
    (hk : (p.term t).kind = .choice pr df) : pr < p.numTerms ∧ df < p.numTerms := by
  unfold childrenOk at h
  rw [hk] at h
  simp only [Bool.and_eq_true, decide_eq_true_eq] at h
  exact h.2

theorem childrenOk_deref {p : Input} {t a : TermId} (h : childrenOk p t = true)
    (hk : (p.term t).kind = .dereference a) : a < p.numTerms := by
  unfold childrenOk at h
  rw [hk] at h
  simp only [Bool.and_eq_true, decide_eq_true_eq] at h
  exact h.2

theorem defsOk_mem {p : Input} {t d : TermId} {c : Chunk} (h : defsOk p t = true)
    (hc : c ∈ p.dfDefs t) (hd : d ∈ c.definitions) : d < p.numTerms := by
  unfold defsOk at h
  rw [List.all_eq_true] at h
  have := h c hc
  rw [List.all_eq_true] at this
  simpa using this d hd

theorem foldl_mk_bound {N : Nat} {mk : AState → TermId → AState}
    (hmk : ∀ st c, c < N → ∀ x ∈ (mk st c).live, x ∈ st.live ∨ x < N) :
    ∀ (l : List TermId), (∀ c ∈ l, c < N) →
      ∀ st, ∀ x ∈ (l.foldl mk st).live, x ∈ st.live ∨ x < N := by
  intro l
  induction l with
  | nil => intro _ st x hx; exact Or.inl hx
  | cons c rest ih =>
    intro hl st x hx
    have hc : c < N := hl c (List.mem_cons_self c rest)
    have hrest : ∀ y ∈ rest, y < N := fun y hy => hl y (List.mem_cons_of_mem c hy)
    rcases ih hrest (mk st c) x hx with hx1 | hx1
    · exact hmk st c hc x hx1
    · exact Or.inr hx1

theorem foldl_chunks_bound {N : Nat} {mk : AState → TermId → AState}
    (hmk : ∀ st c, c < N → ∀ x ∈ (mk st c).live, x ∈ st.live ∨ x < N) :
    ∀ (chunks : List Chunk), (∀ c ∈ chunks, ∀ d ∈ c.definitions, d < N) →
      ∀ st : AState,
        ∀ x ∈ (chunks.foldl (fun acc c => c.definitions.foldl mk acc) st).live,
          x ∈ st.live ∨ x < N := by
  intro chunks
  induction chunks with
  | nil => intro _ st x hx; exact Or.inl hx
  | cons c rest ih =>
    intro hl st x hx
    have hc : ∀ d ∈ c.definitions, d < N := hl c (List.mem_cons_self c rest)
    have hrest : ∀ y ∈ rest, ∀ d ∈ y.definitions, d < N :=
      fun y hy => hl y (List.mem_cons_of_mem c hy)
    rcases ih hrest (c.definitions.foldl mk st) x hx with hx1 | hx1
    · exact foldl_mk_bound hmk c.definitions hc st x hx1
    · exact Or.inr hx1

theorem propagateWith_bound {p : Input} (hwf : WFterms p) {mk : AState → TermId → AState}
    (hmk : ∀ st c, c < p.numTerms → ∀ x ∈ (mk st c).live, x ∈ st.live ∨ x < p.numTerms)
    (st : AState) (t : TermId) (ht : t < p.numTerms) :
    ∀ x ∈ (propagateLivenessWith p mk st t).live, x ∈ st.live ∨ x < p.numTerms := by
  obtain ⟨hch, hdf⟩ := hwf t ht
  intro x hx
  unfold propagateLivenessWith at hx
  cases hk : (p.term t).kind with
  | intConst => rw [hk] at hx; exact Or.inl hx
  | intrinsic => rw [hk] at hx; exact Or.inl hx
  | undefined => rw [hk] at hx; exact Or.inl hx
  | unsupported => rw [hk] at hx; exact Or.inl hx
  | memoryLocationAccess loc =>
    rw [hk] at hx
    by_cases hw : (p.term t).isWrite
    · simp only [hw, if_pos] at hx
      cases hs : (p.term t).source with
      | none => rw [hs] at hx; exact Or.inl hx
      | some s =>
        rw [hs] at hx
        exact hmk st s (childrenOk_source hch hs) x hx
    · simp only [hw, Bool.false_eq_true, ite_false] at hx
      exact foldl_chunks_bound hmk _ (fun c hc d hd => defsOk_mem hdf hc hd) st x hx
  | dereference a =>
    rw [hk] at hx
    have h1 : ∀ y ∈ ((if (p.term t).isWrite then
          match (p.term t).source with
          | some s => mk st s
          | none => st
        else (p.dfDefs t).foldl (fun acc c => c.definitions.foldl mk acc) st)).live,
        y ∈ st.live ∨ y < p.numTerms := by
      intro y hy
      by_cases hw : (p.term t).isWrite
      · simp only [hw, if_pos] at hy
        cases hs : (p.term t).source with
        | none => rw [hs] at hy; exact Or.inl hy
        | some s =>
          rw [hs] at hy
          exact hmk st s (childrenOk_source hch hs) y hy
      · simp only [hw, Bool.false_eq_true, ite_false] at hy
        exact foldl_chunks_bound hmk _ (fun c hc d hd => defsOk_mem hdf hc hd) st y hy
    by_cases hm : (p.dfMemLoc t).isNone
    · simp only [hm, if_pos] at hx
      rcases hmk _ a (childrenOk_deref hch hk) x hx with hx1 | hx1
      · exact h1 x hx1
      · exact Or.inr hx1
    · simp only [hm, Bool.false_eq_true, ite_false] at hx
      exact h1 x hx
  | unaryOperator o =>
    rw [hk] at hx
    exact hmk st o (childrenOk_unary hch hk) x hx
  | binaryOperator l r =>
    rw [hk] at hx
    rcases hmk _ r (childrenOk_binary hch hk).2 x hx with hx1 | hx1
    · exact hmk st l (childrenOk_binary hch hk).1 x hx1
    · exact Or.inr hx1
  | choice pr df =>
    rw [hk] at hx
    by_cases hd : (p.dfDefs pr).isEmpty
    · simp only [hd, if_pos] at hx
      exact hmk st df (childrenOk_choice hch hk).2 x hx
    · simp only [hd, Bool.false_eq_true, ite_false] at hx
      exact hmk st pr (childrenOk_choice hch hk).1 x hx

theorem makeLive_bound (p : Input) (hwf : WFterms p) :
    ∀ (fuel : Nat) (st : AState) (t : TermId), t < p.numTerms →
      ∀ x ∈ (makeLive p fuel st t).live, x ∈ st.live ∨ x < p.numTerms := by
  intro fuel
  induction fuel with
  | zero => intro st t _ x hx; exact Or.inl hx
  | succ fuel ih =>
    intro st t ht x hx
    rw [makeLive] at hx
    by_cases hmem : t ∈ st.live
    · rw [if_pos hmem] at hx; exact Or.inl hx
    · rw [if_neg hmem] at hx
      rcases propagateWith_bound hwf (fun st c hc => ih st c hc) _ t ht x hx with hx1 | hx1
      · rcases List.mem_cons.mp hx1 with hx2 | hx2
        · exact Or.inr (hx2 ▸ ht)
        · exact Or.inl hx2
      · exact Or.inr hx1

theorem card_le_of_subset {l1 l2 : List Nat} (h : ∀ x ∈ l1, x ∈ l2) :
    l1.toFinset.card ≤ l2.toFinset.card := by
  apply Finset.card_le_card
  intro x hx
  rw [List.mem_toFinset] at hx
  rw [List.mem_toFinset]
  exact h x hx

theorem card_lt_of_bounded {l : List Nat} {N : Nat} (h : ∀ x ∈ l, x < N) :
    l.toFinset.card ≤ N := by
  have hsub : l.toFinset ⊆ Finset.range N := by
    intro x hx
    rw [List.mem_toFinset] at hx
    rw [Finset.mem_range]
    exact h x hx
  calc l.toFinset.card ≤ (Finset.range N).card := Finset.card_le_card hsub
    _ = N := Finset.card_range N

theorem card_cons_of_not_mem {t : Nat} {l : List Nat} (h : t ∉ l) :
    (t :: l).toFinset.card = l.toFinset.card + 1 := by
  rw [List.toFinset_cons]
  exact Finset.card_insert_of_not_mem (fun hc => h (List.mem_toFinset.mp hc))

theorem sourceLive_mono {p : Input} {L L2 : List TermId} (hsub : ∀ x ∈ L, x ∈ L2)
    {t : TermId} (h : sourceLive p L t) : sourceLive p L2 t :=
  fun s hs => hsub s (h s hs)

theorem defsLive_mono {p : Input} {L L2 : List TermId} (hsub : ∀ x ∈ L, x ∈ L2)
    {t : TermId} (h : defsLive p L t) : defsLive p L2 t :=
  fun c hc d hd => hsub d (h c hc d hd)

theorem ruleHolds_mono {p : Input} {L L2 : List TermId} (hsub : ∀ x ∈ L, x ∈ L2)
    {t : TermId} (h : RuleHolds p L t) : RuleHolds p L2 t := by
  revert h
  unfold RuleHolds
  cases hk : (p.term t).kind with
  | intConst => intro h; trivial
  | intrinsic => intro h; trivial
  | undefined => intro h; trivial
  | unsupported => intro h; trivial
  | memoryLocationAccess loc =>
    intro h
    by_cases hw : (p.term t).isWrite
    · simp only [hw, if_pos] at h ⊢
      exact sourceLive_mono hsub h
    · simp only [hw, Bool.false_eq_true, ite_false] at h ⊢
      exact defsLive_mono hsub h
  | dereference a =>
    intro h
    refine ⟨?_, fun hm => hsub a (h.2 hm)⟩
    by_cases hw : (p.term t).isWrite
    · simp only [hw, if_pos] at h ⊢
      exact sourceLive_mono hsub h.1
    · simp only [hw, Bool.false_eq_true, ite_false] at h ⊢
      exact defsLive_mono hsub h.1
  | unaryOperator o => intro h; exact hsub o h
  | binaryOperator l r => intro h; exact ⟨hsub l h.1, hsub r h.2⟩
  | choice pr df =>
    intro h
    by_cases hd : (p.dfDefs pr).isEmpty
    · simp only [hd, if_pos] at h ⊢
      exact hsub df h
    · simp only [hd, Bool.false_eq_true, ite_false] at h ⊢
      exact hsub pr h

theorem liveStep_refl (p : Input) (st : AState) : LiveStep p st st :=
  ⟨fun _ hx => hx, fun _ hu => Or.inl hu⟩

theorem liveStep_of_live_eq {p : Input} {st r : AState} (h : r.live = st.live) :
    LiveStep p st r :=
  ⟨fun _ hx => h ▸ hx, fun _ hu => Or.inl (h ▸ hu)⟩

theorem liveStep_trans {p : Input} {st mid r : AState}
    (h1 : LiveStep p st mid) (h2 : LiveStep p mid r) : LiveStep p st r := by
  refine ⟨fun x hx => h2.1 x (h1.1 x hx), fun u hu => ?_⟩
  rcases h2.2 u hu with hm | hr
  · rcases h1.2 u hm with hs | hr1
    · exact Or.inl hs
    · exact Or.inr (ruleHolds_mono h2.1 hr1)
  · exact Or.inr hr

theorem step_insert {p : Input} {st st1 r : AState} {t : TermId}
    (h1 : st1.live = t :: st.live) (hstep : LiveStep p st1 r)
    (hrule : RuleHolds p r.live t) : LiveStep p st r := by
  refine ⟨fun x hx => hstep.1 x (by rw [h1]; exact List.mem_cons_of_mem t hx), fun u hu => ?_⟩
  rcases hstep.2 u hu with hm | hr
  · rw [h1] at hm
    rcases List.mem_cons.mp hm with rfl | hm2
    · exact Or.inr hrule
    · exact Or.inl hm2
  · exact Or.inr hr

theorem mk_call_pack (p : Input) (hwf : WFterms p) (fuel : Nat)
    (ih : ∀ (st : AState) (t : TermId), (∀ x ∈ st.live, x < p.numTerms) →
      t < p.numTerms → p.numTerms < fuel + st.live.toFinset.card →
      LiveStep p st (makeLive p fuel st t))
    (st : AState) (c : TermId)
    (hb : ∀ x ∈ st.live, x < p.numTerms) (hc : c < p.numTerms)
    (hcard : p.numTerms < fuel + st.live.toFinset.card) :
    LiveStep p st (makeLive p fuel st c) ∧
    (∀ x ∈ (makeLive p fuel st c).live, x < p.numTerms) ∧
    p.numTerms < fuel + (makeLive p fuel st c).live.toFinset.card ∧
    c ∈ (makeLive p fuel st c).live := by
  have hstep := ih st c hb hc hcard
  have hbound : ∀ x ∈ (makeLive p fuel st c).live, x < p.numTerms := by
    intro x hx
    rcases makeLive_bound p hwf fuel st c hc x hx with h | h
    · exact hb x h
    · exact h
  have hcard2 : p.numTerms < fuel + (makeLive p fuel st c).live.toFinset.card := by
    have := card_le_of_subset hstep.1
    omega
  have hfuel : 1 ≤ fuel := by
    have := card_lt_of_bounded hb
    omega
  exact ⟨hstep, hbound, hcard2, makeLive_mem p fuel st c hfuel⟩

theorem mk_fold_pack (p : Input) (hwf : WFterms p) (fuel : Nat)
    (ih : ∀ (st : AState) (t : TermId), (∀ x ∈ st.live, x < p.numTerms) →
      t < p.numTerms → p.numTerms < fuel + st.live.toFinset.card →
      LiveStep p st (makeLive p fuel st t)) :
    ∀ (l : List TermId), (∀ c ∈ l, c < p.numTerms) →
      ∀ st : AState, (∀ x ∈ st.live, x < p.numTerms) →
        p.numTerms < fuel + st.live.toFinset.card →
        LiveStep p st (l.foldl (makeLive p fuel) st) ∧
        (∀ x ∈ (l.foldl (makeLive p fuel) st).live, x < p.numTerms) ∧
        p.numTerms < fuel + (l.foldl (makeLive p fuel) st).live.toFinset.card ∧
        (∀ c ∈ l, c ∈ (l.foldl (makeLive p fuel) st).live) := by
  intro l
  induction l with
  | nil =>
    intro _ st hb hcard
    exact ⟨liveStep_refl p st, hb, hcard, by intro c hc; cases hc⟩
  | cons c rest ih2 =>
    intro hl st hb hcard
    have hc : c < p.numTerms := hl c (List.mem_cons_self c rest)
    have hrest : ∀ y ∈ rest, y < p.numTerms := fun y hy => hl y (List.mem_cons_of_mem c hy)
    obtain ⟨hstep1, hb1, hcard1, hmem1⟩ := mk_call_pack p hwf fuel ih st c hb hc hcard
    obtain ⟨hstep2, hb2, hcard2, hmem2⟩ := ih2 hrest (makeLive p fuel st c) hb1 hcard1
    refine ⟨liveStep_trans hstep1 hstep2, hb2, hcard2, ?_⟩
    intro d hd
    rcases List.mem_cons.mp hd with rfl | hd2
    · exact hstep2.1 d hmem1
    · exact hmem2 d hd2

theorem mk_chunks_pack (p : Input) (hwf : WFterms p) (fuel : Nat)
    (ih : ∀ (st : AState) (t : TermId), (∀ x ∈ st.live, x < p.numTerms) →
      t < p.numTerms → p.numTerms < fuel + st.live.toFinset.card →
      LiveStep p st (makeLive p fuel st t)) :
    ∀ (chunks : List Chunk), (∀ c ∈ chunks, ∀ d ∈ c.definitions, d < p.numTerms) →
      ∀ st : AState, (∀ x ∈ st.live, x < p.numTerms) →
        p.numTerms < fuel + st.live.toFinset.card →
        LiveStep p st
          (chunks.foldl (fun acc c => c.definitions.foldl (makeLive p fuel) acc) st) ∧
        (∀ x ∈ (chunks.foldl (fun acc c => c.definitions.foldl (makeLive p fuel) acc) st).live,
          x < p.numTerms) ∧
        p.numTerms < fuel +
          (chunks.foldl (fun acc c => c.definitions.foldl (makeLive p fuel) acc) st).live.toFinset.card ∧
        (∀ c ∈ chunks, ∀ d ∈ c.definitions,
          d ∈ (chunks.foldl (fun acc c => c.definitions.foldl (makeLive p fuel) acc) st).live) := by
  intro chunks
  induction chunks with
  | nil =>
    intro _ st hb hcard
    exact ⟨liveStep_refl p st, hb, hcard, by intro c hc; cases hc⟩
  | cons c rest ih2 =>
    intro hl st hb hcard
    have hc : ∀ d ∈ c.definitions, d < p.numTerms := hl c (List.mem_cons_self c rest)
    have hrest : ∀ y ∈ rest, ∀ d ∈ y.definitions, d < p.numTerms :=
      fun y hy => hl y (List.mem_cons_of_mem c hy)
    obtain ⟨hstep1, hb1, hcard1, hmem1⟩ := mk_fold_pack p hwf fuel ih c.definitions hc st hb hcard
    obtain ⟨hstep2, hb2, hcard2, hmem2⟩ := ih2 hrest (c.definitions.foldl (makeLive p fuel) st) hb1 hcard1
    refine ⟨liveStep_trans hstep1 hstep2, hb2, hcard2, ?_⟩
    intro c2 hc2 d hd
    rcases List.mem_cons.mp hc2 with rfl | hc3
    · exact hstep2.1 d (hmem1 d hd)
    · exact hmem2 c2 hc3 d hd

theorem mk_wr_pack (p : Input) (hwf : WFterms p) (fuel : Nat)
    (ih : ∀ (st : AState) (t : TermId), (∀ x ∈ st.live, x < p.numTerms) →
      t < p.numTerms → p.numTerms < fuel + st.live.toFinset.card →
      LiveStep p st (makeLive p fuel st t))
    (t : TermId) (hch : childrenOk p t = true) (hdf : defsOk p t = true)
    (st1 : AState) (hb1 : ∀ x ∈ st1.live, x < p.numTerms)
    (hcard1 : p.numTerms < fuel + st1.live.toFinset.card) :
    LiveStep p st1
      (if (p.term t).isWrite then
        match (p.term t).source with
        | some s => makeLive p fuel st1 s
        | none => st1
      else (p.dfDefs t).foldl (fun acc c => c.definitions.foldl (makeLive p fuel) acc) st1) ∧
    (∀ x ∈ ((if (p.term t).isWrite then
        match (p.term t).source with
        | some s => makeLive p fuel st1 s
        | none => st1
      else (p.dfDefs t).foldl (fun acc c => c.definitions.foldl (makeLive p fuel) acc) st1)).live,
      x < p.numTerms) ∧
    p.numTerms < fuel +
      ((if (p.term t).isWrite then
        match (p.term t).source with
        | some s => makeLive p fuel st1 s
        | none => st1
      else (p.dfDefs t).foldl (fun acc c => c.definitions.foldl (makeLive p fuel) acc) st1)).live.toFinset.card ∧
    (if (p.term t).isWrite then
      sourceLive p
        ((if (p.term t).isWrite then
          match (p.term t).source with
          | some s => makeLive p fuel st1 s
          | none => st1
        else (p.dfDefs t).foldl (fun acc c => c.definitions.foldl (makeLive p fuel) acc) st1)).live t
    else
      defsLive p
        ((if (p.term t).isWrite then
          match (p.term t).source with
          | some s => makeLive p fuel st1 s
          | none => st1
        else (p.dfDefs t).foldl (fun acc c => c.definitions.foldl (makeLive p fuel) acc) st1)).live t) := by
  by_cases hw : (p.term t).isWrite
  · simp only [hw, if_pos]
    cases hs : (p.term t).source with
    | some s =>
      obtain ⟨hstep, hb2, hcard2, hmem2⟩ :=
        mk_call_pack p hwf fuel ih st1 s hb1 (childrenOk_source hch hs) hcard1
      refine ⟨hstep, hb2, hcard2, ?_⟩
      intro s2 hs2
      rw [hs] at hs2
      obtain rfl := Option.some.inj hs2
      exact hmem2
    | none =>
      refine ⟨liveStep_refl p st1, hb1, hcard1, ?_⟩
      intro s2 hs2
      rw [hs] at hs2
      exact Option.noConfusion hs2
  · simp only [hw, Bool.false_eq_true, ite_false]
    obtain ⟨hstep, hb2, hcard2, hmem2⟩ :=
      mk_chunks_pack p hwf fuel ih (p.dfDefs t) (fun c hc d hd => defsOk_mem hdf hc hd)
        st1 hb1 hcard1
    exact ⟨hstep, hb2, hcard2, hmem2⟩

theorem ite_wr_mono {p : Input} {L L2 : List TermId} {t : TermId}
    (hsub : ∀ x ∈ L, x ∈ L2)
    (h : if (p.term t).isWrite then sourceLive p L t else defsLive p L t) :
    if (p.term t).isWrite then sourceLive p L2 t else defsLive p L2 t := by
  by_cases hw : (p.term t).isWrite
  · simp only [hw, if_pos] at h ⊢
    exact sourceLive_mono hsub h
  · simp only [hw, Bool.false_eq_true, ite_false] at h ⊢
    exact defsLive_mono hsub h

theorem makeLive_step (p : Input) (hwf : WFterms p) :
    ∀ (fuel : Nat) (st : AState) (t : TermId),
      (∀ x ∈ st.live, x < p.numTerms) → t < p.numTerms →
      p.numTerms < fuel + st.live.toFinset.card →
      LiveStep p st (makeLive p fuel st t) := by
  intro fuel
  induction fuel with
  | zero =>
    intro st t hb ht hcard
    have := card_lt_of_bounded hb
    omega
  | succ fuel ih =>
    intro st t hb ht hcard
    rw [makeLive]
    by_cases hmem : t ∈ st.live
    · rw [if_pos hmem]
      exact liveStep_refl p st
    · rw [if_neg hmem]
      have h1live : ({ st with live := t :: st.live } : AState).live = t :: st.live := rfl
      have hb1 : ∀ x ∈ ({ st with live := t :: st.live } : AState).live, x < p.numTerms := by
        intro x hx
        rcases List.mem_cons.mp hx with rfl | hx2
        · exact ht
        · exact hb x hx2
      have hcard1 : p.numTerms <
          fuel + ({ st with live := t :: st.live } : AState).live.toFinset.card := by
        have hc2 : ({ st with live := t :: st.live } : AState).live.toFinset.card =
            st.live.toFinset.card + 1 := card_cons_of_not_mem hmem
        omega
      obtain ⟨hch, hdf⟩ := hwf t ht
      unfold propagateLivenessWith
      cases hk : (p.term t).kind with
      | intConst =>
        refine step_insert h1live (liveStep_refl p _) ?_
        unfold RuleHolds
        rw [hk]
        trivial
      | intrinsic =>
        refine step_insert h1live (liveStep_refl p _) ?_
        unfold RuleHolds
        rw [hk]
        trivial
      | undefined =>
        refine step_insert h1live (liveStep_refl p _) ?_
        unfold RuleHolds
        rw [hk]
        trivial
      | unsupported =>
        refine step_insert h1live (liveStep_of_live_eq rfl) ?_
        unfold RuleHolds
        rw [hk]
        trivial
      | memoryLocationAccess loc =>
        obtain ⟨hstep, hb2, hcard2, hwr⟩ :=
          mk_wr_pack p hwf fuel ih t hch hdf _ hb1 hcard1
        refine step_insert h1live hstep ?_
        unfold RuleHolds
        rw [hk]
        exact hwr
      | dereference a =>
        obtain ⟨hstep, hb2, hcard2, hwr⟩ :=
          mk_wr_pack p hwf fuel ih t hch hdf _ hb1 hcard1
        by_cases hm : (p.dfMemLoc t).isNone
        · simp only [hm, if_pos]
          obtain ⟨hstep3, hb3, hcard3, hmem3⟩ :=
            mk_call_pack p hwf fuel ih _ a hb2 (childrenOk_deref hch hk) hcard2
          refine step_insert h1live (liveStep_trans hstep hstep3) ?_
          unfold RuleHolds
          rw [hk]
          exact ⟨ite_wr_mono hstep3.1 hwr, fun _ => hmem3⟩
        · simp only [hm, Bool.false_eq_true, ite_false]
          refine step_insert h1live hstep ?_
          unfold RuleHolds
          rw [hk]
          exact ⟨hwr, fun hmm => absurd hmm hm⟩
      | unaryOperator o =>
        obtain ⟨hstep, hb2, hcard2, hmem2⟩ :=
          mk_call_pack p hwf fuel ih _ o hb1 (childrenOk_unary hch hk) hcard1
        refine step_insert h1live hstep ?_
        unfold RuleHolds
        rw [hk]
        exact hmem2
      | binaryOperator l r =>
        obtain ⟨hstepL, hbL, hcardL, hmemL⟩ :=
          mk_call_pack p hwf fuel ih _ l hb1 (childrenOk_binary hch hk).1 hcard1
        obtain ⟨hstepR, hbR, hcardR, hmemR⟩ :=
          mk_call_pack p hwf fuel ih _ r hbL (childrenOk_binary hch hk).2 hcardL
        refine step_insert h1live (liveStep_trans hstepL hstepR) ?_
        unfold RuleHolds
        rw [hk]
        exact ⟨hstepR.1 l hmemL, hmemR⟩
      | choice pr df =>
        by_cases hd : (p.dfDefs pr).isEmpty
        · simp only [hd, if_pos]
          obtain ⟨hstep, hb2, hcard2, hmem2⟩ :=
            mk_call_pack p hwf fuel ih _ df hb1 (childrenOk_choice hch hk).2 hcard1
          refine step_insert h1live hstep ?_
          unfold RuleHolds
          rw [hk]
          simp only [hd, if_pos]
          exact hmem2
        · simp only [hd, Bool.false_eq_true, ite_false]
          obtain ⟨hstep, hb2, hcard2, hmem2⟩ :=
            mk_call_pack p hwf fuel ih _ pr hb1 (childrenOk_choice hch hk).1 hcard1
          refine step_insert h1live hstep ?_
          unfold RuleHolds
          rw [hk]
          simp only [hd, Bool.false_eq_true, ite_false]
          exact hmem2

theorem makeLiveTop_pack (p : Input) (hwf : WFterms p) (st : AState) (t : TermId)
    (hb : ∀ x ∈ st.live, x < p.numTerms) (ht : t < p.numTerms) :
    LiveStep p st (makeLiveTop p st t) ∧
    (∀ x ∈ (makeLiveTop p st t).live, x < p.numTerms) ∧
    t ∈ (makeLiveTop p st t).live := by
  have hcard : p.numTerms < analyzeFuel p + st.live.toFinset.card := by
    unfold analyzeFuel
    omega
  refine ⟨makeLive_step p hwf (analyzeFuel p) st t hb ht hcard, ?_, makeLiveTop_mem p st t⟩
  intro x hx
  rcases makeLive_bound p hwf (analyzeFuel p) st t ht x hx with h | h
  · exact hb x h
  · exact h

theorem foldl_liveStep {α : Type} (p : Input) (g : AState → α → AState) :
    ∀ (l : List α),
      (∀ (st : AState) (a : α), a ∈ l → (∀ x ∈ st.live, x < p.numTerms) →
        LiveStep p st (g st a) ∧ (∀ x ∈ (g st a).live, x < p.numTerms)) →
      ∀ st : AState, (∀ x ∈ st.live, x < p.numTerms) →
        LiveStep p st (l.foldl g st) ∧ (∀ x ∈ (l.foldl g st).live, x < p.numTerms) := by
  intro l
  induction l with
  | nil => intro _ st hb; exact ⟨liveStep_refl p st, hb⟩
  | cons a rest ih =>
    intro hg st hb
    obtain ⟨h1, hb1⟩ := hg st a (List.mem_cons_self a rest) hb
    obtain ⟨h2, hb2⟩ :=
      ih (fun st2 a2 ha2 hb2 => hg st2 a2 (List.mem_cons_of_mem a ha2) hb2) (g st a) hb1
    exact ⟨liveStep_trans h1 h2, hb2⟩

theorem opt_bound {N : Nat} {o : Option Nat}
    (h : (match o with | some c => decide (c < N) | none => true) = true) :
    ∀ c, o = some c → c < N := by
  intro c hc
  rw [hc] at h
  simpa using h

theorem optSeed_step (p : Input) (hwf : WFterms p) (o : Option TermId)
    (hbound : ∀ c, o = some c → c < p.numTerms) (st : AState)
    (hb : ∀ x ∈ st.live, x < p.numTerms) :
    LiveStep p st (optSeed p st o) ∧
    (∀ x ∈ (optSeed p st o).live, x < p.numTerms) := by
  cases o with
  | none => exact ⟨liveStep_refl p st, hb⟩
  | some c =>
    obtain ⟨h1, h2, _⟩ := makeLiveTop_pack p hwf st c hb (hbound c rfl)
    exact ⟨h1, h2⟩

theorem computeLivenessStmt_step (p : Input) (hwf : WFterms p) (dj : List StmtId)
    (st : AState) (s : StmtId) (hrefs : stmtRefsOk p s = true)
    (hhk : callHookOk p s = true) (hb : ∀ x ∈ st.live, x < p.numTerms) :
    LiveStep p st (computeLivenessStmt p dj st s) ∧
    (∀ x ∈ (computeLivenessStmt p dj st s).live, x < p.numTerms) := by
  unfold computeLivenessStmt
  cases hst : p.stmt s with
  | comment => exact ⟨liveStep_refl p st, hb⟩
  | inlineAssembly => exact ⟨liveStep_refl p st, hb⟩
  | assignment => exact ⟨liveStep_refl p st, hb⟩
  | kill => exact ⟨liveStep_refl p st, hb⟩
  | ret => exact ⟨liveStep_refl p st, hb⟩
  | unsupported => exact ⟨liveStep_of_live_eq rfl, hb⟩
  | jump condition thenAddress elseAddress =>
    unfold stmtRefsOk at hrefs
    rw [hst] at hrefs
    simp only [Bool.and_eq_true] at hrefs
    obtain ⟨⟨hc, hta⟩, hea⟩ := hrefs
    dsimp only
    by_cases hdj : s ∈ dj
    · simp only [hdj, ite_true]
      exact ⟨liveStep_refl p st, hb⟩
    · simp only [hdj, ite_false]
      obtain ⟨h1, hb1⟩ := optSeed_step p hwf condition (opt_bound hc) st hb
      obtain ⟨h2, hb2⟩ := optSeed_step p hwf thenAddress (opt_bound hta) _ hb1
      obtain ⟨h3, hb3⟩ := optSeed_step p hwf elseAddress (opt_bound hea) _ hb2
      exact ⟨liveStep_trans (liveStep_trans h1 h2) h3, hb3⟩
  | call target =>
    unfold stmtRefsOk at hrefs
    rw [hst] at hrefs
    simp only [decide_eq_true_eq] at hrefs
    obtain ⟨h1, hb1, _⟩ := makeLiveTop_pack p hwf st target hb hrefs
    unfold callHookOk at hhk
    dsimp only
    cases hcid : p.callCalleeId s with
    | none => exact ⟨h1, hb1⟩
    | some cid =>
      simp only [hcid] at hhk
      dsimp only
      cases hsig : p.getSignature cid with
      | none => exact ⟨h1, hb1⟩
      | some sig =>
        simp only [hsig] at hhk
        dsimp only
        cases hch : p.callHook s with
        | none => exact ⟨h1, hb1⟩
        | some ch =>
          simp only [hch] at hhk
          rw [List.all_eq_true] at hhk
          dsimp only
          obtain ⟨h2, hb2⟩ := foldl_liveStep p (fun acc loc => makeLiveTop p acc (ch loc))
            sig.arguments
            (fun st2 loc hloc hb2 => by
              obtain ⟨ha, hab, _⟩ := makeLiveTop_pack p hwf st2 (ch loc) hb2
                (by simpa using hhk loc hloc)
              exact ⟨ha, hab⟩)
            _ hb1
          exact ⟨liveStep_trans h1 h2, hb2⟩

theorem computeLivenessTerm_step (p : Input) (hwf : WFterms p) (st : AState)
    (t : TermId) (ht : t < p.numTerms) (hb : ∀ x ∈ st.live, x < p.numTerms) :
    LiveStep p st (computeLivenessTerm p st t) ∧
    (∀ x ∈ (computeLivenessTerm p st t).live, x < p.numTerms) := by
  unfold computeLivenessTerm
  cases hk : (p.term t).kind with
  | intConst => exact ⟨liveStep_refl p st, hb⟩
  | intrinsic => exact ⟨liveStep_refl p st, hb⟩
  | undefined => exact ⟨liveStep_refl p st, hb⟩
  | unsupported => exact ⟨liveStep_of_live_eq rfl, hb⟩
  | unaryOperator o => exact ⟨liveStep_refl p st, hb⟩
  | binaryOperator l r => exact ⟨liveStep_refl p st, hb⟩
  | choice pr df => exact ⟨liveStep_refl p st, hb⟩
  | memoryLocationAccess loc =>
    by_cases hw : (p.term t).isWrite
    · simp only [hw, if_pos]
      by_cases hg : p.isGlobalMemory loc
      · simp only [hg, if_pos]
        obtain ⟨h1, hb1, _⟩ := makeLiveTop_pack p hwf st t hb ht
        exact ⟨h1, hb1⟩
      · simp only [hg, Bool.false_eq_true, ite_false]
        exact ⟨liveStep_refl p st, hb⟩
    · simp only [hw, Bool.false_eq_true, ite_false]
      exact ⟨liveStep_refl p st, hb⟩
  | dereference a =>
    by_cases hw : (p.term t).isWrite
    · simp only [hw, if_pos]
      cases hm : p.dfMemLoc t with
      | none =>
        obtain ⟨h1, hb1, _⟩ := makeLiveTop_pack p hwf st t hb ht
        exact ⟨h1, hb1⟩
      | some ml =>
        by_cases hg : p.isGlobalMemory ml
        · simp only [hg, if_pos]
          obtain ⟨h1, hb1, _⟩ := makeLiveTop_pack p hwf st t hb ht
          exact ⟨h1, hb1⟩
        · simp only [hg, Bool.false_eq_true, ite_false]
          exact ⟨liveStep_refl p st, hb⟩
    · simp only [hw, Bool.false_eq_true, ite_false]
      exact ⟨liveStep_refl p st, hb⟩

theorem seedReturns_step (p : Input) (hwf : WFterms p)
    (hret : returnSeedOk p = true) (st : AState)
    (hb : ∀ x ∈ st.live, x < p.numTerms) :
    LiveStep p st (seedReturns p st) ∧
    (∀ x ∈ (seedReturns p st).live, x < p.numTerms) := by
  unfold seedReturns
  unfold returnSeedOk at hret
  cases hcid : p.functionCalleeId with
  | none => exact ⟨liveStep_refl p st, hb⟩
  | some cid =>
    simp only [hcid] at hret
    dsimp only
    cases hsig : p.getSignature cid with
    | none => exact ⟨liveStep_refl p st, hb⟩
    | some sig =>
      simp only [hsig] at hret
      dsimp only
      cases hrv : sig.returnValue with
      | none => exact ⟨liveStep_refl p st, hb⟩
      | some rv =>
        simp only [hrv] at hret
        rw [List.all_eq_true] at hret
        dsimp only
        exact foldl_liveStep p
          (fun acc r =>
            match p.returnHook r with
            | some rh => makeLiveTop p acc (rh rv)
            | none => acc)
          p.returns
          (fun st2 r hr hb2 => by
            dsimp only
            have hb3 := hret r hr
            cases hrh : p.returnHook r with
            | none => exact ⟨liveStep_refl p st2, hb2⟩
            | some rh =>
              simp only [hrh] at hb3
              obtain ⟨ha, hab, _⟩ := makeLiveTop_pack p hwf st2 (rh rv) hb2 (by simpa using hb3)
              exact ⟨ha, hab⟩)
          st hb

/-- Main closure result: on a well-formed input, the liveness set computed
by analyze is closed under the propagation rules of propagateLiveness. -/
theorem analyze_closed (p : Input) (hwf : WF p) : Closed p (analyze p).live := by
  obtain ⟨hwt, hct, hcs, hret⟩ := hwf
  have hb0 : ∀ x ∈ ({ live := [], warnings := 0 } : AState).live, x < p.numTerms := by
    intro x hx
    cases hx
  obtain ⟨h1, hb1⟩ := foldl_liveStep p (computeLivenessStmt p (deadJumps p))
    p.censusStatements
    (fun st s hs hb => computeLivenessStmt_step p hwt (deadJumps p) st s
      (hcs s hs).1 (hcs s hs).2 hb)
    { live := [], warnings := 0 } hb0
  obtain ⟨h2, hb2⟩ := foldl_liveStep p (computeLivenessTerm p) p.censusTerms
    (fun st t ht hb => computeLivenessTerm_step p hwt st t (hct t ht) hb)
    _ hb1
  obtain ⟨h3, hb3⟩ := seedReturns_step p hwt hret _ hb2
  have htot : LiveStep p { live := [], warnings := 0 } (analyze p) :=
    liveStep_trans (liveStep_trans h1 h2) h3
  intro t ht
  rcases htot.2 t ht with h0 | hr
  · cases h0
  · exact hr

theorem foldl_mono_any {α : Type} (g : AState → α → AState)
    (hg : ∀ (st : AState) (a : α), ∀ x ∈ st.live, x ∈ (g st a).live) :
    ∀ (l : List α) (st : AState), ∀ x ∈ st.live, x ∈ (l.foldl g st).live := by
  intro l
  induction l with
  | nil => intro st x hx; exact hx
  | cons a rest ih => intro st x hx; exact ih (g st a) x (hg st a x hx)

theorem optSeed_mono (p : Input) (st : AState) (o : Option TermId) :
    ∀ x ∈ st.live, x ∈ (optSeed p st o).live := by
  cases o with
  | none => intro x hx; exact hx
  | some c => exact makeLiveTop_mono p st c

theorem optSeed_mem (p : Input) (st : AState) (c : TermId) :
    c ∈ (optSeed p st (some c)).live :=
  makeLiveTop_mem p st c

theorem computeLivenessStmt_mono (p : Input) (dj : List StmtId) (st : AState)
    (s : StmtId) : ∀ x ∈ st.live, x ∈ (computeLivenessStmt p dj st s).live := by
  intro x hx
  unfold computeLivenessStmt
  cases hst : p.stmt s with
  | comment => exact hx
  | inlineAssembly => exact hx
  | assignment => exact hx
  | kill => exact hx
  | ret => exact hx
  | unsupported => exact hx
  | jump condition thenAddress elseAddress =>
    dsimp only
    by_cases hdj : s ∈ dj
    · simp only [hdj, ite_true]
      exact hx
    · simp only [hdj, ite_false]
      exact optSeed_mono p _ _ x (optSeed_mono p _ _ x (optSeed_mono p _ _ x hx))
  | call target =>
    dsimp only
    have h1 : x ∈ (makeLiveTop p st target).live := makeLiveTop_mono p st target x hx
    cases p.callCalleeId s with
    | none => exact h1
    | some cid =>
      dsimp only
      cases p.getSignature cid with
      | none => exact h1
      | some sig =>
        dsimp only
        cases p.callHook s with
        | none => exact h1
        | some ch =>
          dsimp only
          exact foldl_mono_any _ (fun st2 a y hy => makeLiveTop_mono p st2 (ch a) y hy)
            sig.arguments _ x h1

theorem computeLivenessTerm_mono (p : Input) (st : AState) (t : TermId) :
    ∀ x ∈ st.live, x ∈ (computeLivenessTerm p st t).live := by
  intro x hx
  unfold computeLivenessTerm
  cases hk : (p.term t).kind with
  | intConst => exact hx
  | intrinsic => exact hx
  | undefined => exact hx
  | unsupported => exact hx
  | unaryOperator o => exact hx
  | binaryOperator l r => exact hx
  | choice pr df => exact hx
  | memoryLocationAccess loc =>
    dsimp only
    by_cases hw : (p.term t).isWrite
    · simp only [hw, ite_true]
      by_cases hg : p.isGlobalMemory loc
      · simp only [hg, ite_true]
        exact makeLiveTop_mono p st t x hx
      · simp only [hg, Bool.false_eq_true, ite_false]
        exact hx
    · simp only [hw, Bool.false_eq_true, ite_false]
      exact hx
  | dereference a =>
    dsimp only
    by_cases hw : (p.term t).isWrite
    · simp only [hw, ite_true]
      cases p.dfMemLoc t with
      | none => exact makeLiveTop_mono p st t x hx
      | some ml =>
        dsimp only
        by_cases hg : p.isGlobalMemory ml
        · simp only [hg, ite_true]
          exact makeLiveTop_mono p st t x hx
        · simp only [hg, Bool.false_eq_true, ite_false]
          exact hx
    · simp only [hw, Bool.false_eq_true, ite_false]
      exact hx

theorem seedReturns_mono (p : Input) (st : AState) :
    ∀ x ∈ st.live, x ∈ (seedReturns p st).live := by
  intro x hx
  unfold seedReturns
  cases p.functionCalleeId with
  | none => exact hx
  | some cid =>
    dsimp only
    cases p.getSignature cid with
    | none => exact hx
    | some sig =>
      dsimp only
      cases sig.returnValue with
      | none => exact hx
      | some rv =>
        dsimp only
        refine foldl_mono_any _ ?_ p.returns st x hx
        intro st2 r y hy
        dsimp only
        cases p.returnHook r with
        | none => exact hy
        | some rh => exact makeLiveTop_mono p st2 (rh rv) y hy

theorem seedTerms_mono (p : Input) (st : AState) :
    ∀ x ∈ st.live, x ∈ (seedTerms p st).live :=
  foldl_mono_any _ (fun st2 t y hy => computeLivenessTerm_mono p st2 t y hy) p.censusTerms st

theorem foldl_pres {α : Type} (g : AState → α → AState) (Q : AState → Prop)
    (hpres : ∀ (st : AState) (a : α), Q st → Q (g st a)) :
    ∀ (l : List α) (st : AState), Q st → Q (l.foldl g st) := by
  intro l
  induction l with
  | nil => intro st hq; exact hq
  | cons a rest ih => intro st hq; exact ih (g st a) (hpres st a hq)

theorem foldl_establish {α : Type} (g : AState → α → AState) (Q : AState → Prop)
    (hpres : ∀ (st : AState) (a : α), Q st → Q (g st a)) {s : α} :
    ∀ (l : List α), s ∈ l → (∀ st : AState, Q (g st s)) →
      ∀ st : AState, Q (l.foldl g st) := by
  intro l
  induction l with
  | nil => intro hs; cases hs
  | cons a rest ih =>
    intro hs hEst st
    rcases List.mem_cons.mp hs with rfl | hs2
    · exact foldl_pres g Q hpres rest (g st s) (hEst st)
    · exact ih hs2 hEst (g st a)

theorem foldl_mem_map {α : Type} (p : Input) (f : α → TermId) :
    ∀ (l : List α) (a : α), a ∈ l → ∀ st : AState,
      f a ∈ (l.foldl (fun acc x => makeLiveTop p acc (f x)) st).live := by
  intro l
  induction l with
  | nil => intro a ha; cases ha
  | cons b rest ih =>
    intro a ha st
    rcases List.mem_cons.mp ha with rfl | ha2
    · exact foldl_mono_any _ (fun st2 x y hy => makeLiveTop_mono p st2 (f x) y hy)
        rest _ (f a) (makeLiveTop_mem p st (f a))
    · exact ih a ha2 (makeLiveTop p st (f b))

/-- C5: every Call statement seeds its target term unconditionally; when
the callee id, its signature and the call hook are all present, the
argument term of every signature argument location is seeded; and when the
function has a callee id whose signature has a return value, the return
value term of every Return statement with a ReturnHook is seeded.  All
seeded terms are in the final liveness set. -/
theorem claim_C5 (p : Input) :
    (∀ s tgt, s ∈ p.censusStatements → p.stmt s = StmtData.call tgt →
      tgt ∈ (analyze p).live) ∧
    (∀ s tgt cid sig ch, s ∈ p.censusStatements → p.stmt s = StmtData.call tgt →
      p.callCalleeId s = some cid → p.getSignature cid = some sig →
      p.callHook s = some ch →
      ∀ loc ∈ sig.arguments, ch loc ∈ (analyze p).live) ∧
    (∀ cid sig rv r rh, p.functionCalleeId = some cid →
      p.getSignature cid = some sig → sig.returnValue = some rv →
      r ∈ p.returns → p.returnHook r = some rh →
      rh rv ∈ (analyze p).live) := by
  refine ⟨?_, ?_, ?_⟩
  · intro s tgt hs hstmt
    have hEst : ∀ st : AState, tgt ∈ (computeLivenessStmt p (deadJumps p) st s).live := by
      intro st
      simp only [computeLivenessStmt, hstmt]
      have h1 : tgt ∈ (makeLiveTop p st tgt).live := makeLiveTop_mem p st tgt
      cases p.callCalleeId s with
      | none => exact h1
      | some cid =>
        dsimp only
        cases p.getSignature cid with
        | none => exact h1
        | some sig =>
          dsimp only
          cases p.callHook s with
          | none => exact h1
          | some ch =>
            dsimp only
            exact foldl_mono_any _ (fun st2 a y hy => makeLiveTop_mono p st2 (ch a) y hy)
              sig.arguments _ tgt h1
    have h1 : tgt ∈ (seedStatements p (deadJumps p) { live := [], warnings := 0 }).live := by
      unfold seedStatements
      exact foldl_establish _ (fun st2 => tgt ∈ st2.live)
        (fun st2 a hq => computeLivenessStmt_mono p (deadJumps p) st2 a tgt hq)
        p.censusStatements hs hEst _
    exact seedReturns_mono p _ tgt (seedTerms_mono p _ tgt h1)
  · intro s tgt cid sig ch hs hstmt hcid hsig hch loc hloc
    have hEst : ∀ st : AState, ch loc ∈ (computeLivenessStmt p (deadJumps p) st s).live := by
      intro st
      simp only [computeLivenessStmt, hstmt, hcid, hsig, hch]
      exact foldl_mem_map p ch sig.arguments loc hloc _
    have h1 : ch loc ∈ (seedStatements p (deadJumps p) { live := [], warnings := 0 }).live := by
      unfold seedStatements
      exact foldl_establish _ (fun st2 => ch loc ∈ st2.live)
        (fun st2 a hq => computeLivenessStmt_mono p (deadJumps p) st2 a (ch loc) hq)
        p.censusStatements hs hEst _
    exact seedReturns_mono p _ (ch loc) (seedTerms_mono p _ (ch loc) h1)
  · intro cid sig rv r rh hcid hsig hrv hr hrh
    unfold analyze seedReturns
    simp only [hcid, hsig, hrv]
    refine foldl_establish _ (fun st2 => rh rv ∈ st2.live) ?_ p.returns hr ?_ _
    · intro st2 a hq
      dsimp only
      cases p.returnHook a with
      | none => exact hq
      | some rh2 => exact makeLiveTop_mono p st2 (rh2 rv) (rh rv) hq
    · intro st2
      dsimp only
      simp only [hrh]
      exact makeLiveTop_mem p st2 (rh rv)

/-- C6: the dead jump list is the sorted collection of exactly the
terminating jumps of the boundsCheckNode blocks of Switch regions; a jump
statement not in the list seeds its condition and target address terms
into the final liveness set; a jump in the list seeds nothing. -/
theorem claim_C6 (p : Input) :
    List.Sorted (fun a b => a ≤ b) (deadJumps p) ∧
    (∀ j, j ∈ deadJumps p ↔ j ∈ boundsCheckJumps p) ∧
    (∀ j, j ∈ boundsCheckJumps p ↔ NodeData.switchRegion (some j) ∈ p.graphNodes) ∧
    (∀ s c ta ea, s ∈ p.censusStatements → p.stmt s = StmtData.jump c ta ea →
      s ∉ deadJumps p →
      (∀ x, c = some x → x ∈ (analyze p).live) ∧
      (∀ x, ta = some x → x ∈ (analyze p).live) ∧
      (∀ x, ea = some x → x ∈ (analyze p).live)) ∧
    (∀ (dj : List StmtId) (st : AState) (s : StmtId) c ta ea,
      p.stmt s = StmtData.jump c ta ea → s ∈ dj →
      computeLivenessStmt p dj st s = st) := by
  refine ⟨?_, ?_, ?_, ?_, ?_⟩
  · unfold deadJumps
    exact List.sorted_insertionSort _ _
  · intro j
    unfold deadJumps
    exact (List.perm_insertionSort _ _).mem_iff
  · intro j
    constructor
    · intro hj
      unfold boundsCheckJumps at hj
      rw [List.mem_filterMap] at hj
      obtain ⟨n, hn, hfn⟩ := hj
      cases n with
      | basicNode => simp at hfn
      | ordinaryRegion => simp at hfn
      | switchRegion o =>
        cases o with
        | none => simp at hfn
        | some j2 =>
          simp only [Option.some.injEq] at hfn
          subst hfn
          exact hn
    · intro hn
      unfold boundsCheckJumps
      rw [List.mem_filterMap]
      exact ⟨_, hn, rfl⟩
  · intro s c ta ea hs hstmt hdead
    have hEst : ∀ st : AState,
        (∀ x, c = some x → x ∈ (computeLivenessStmt p (deadJumps p) st s).live) ∧
        (∀ x, ta = some x → x ∈ (computeLivenessStmt p (deadJumps p) st s).live) ∧
        (∀ x, ea = some x → x ∈ (computeLivenessStmt p (deadJumps p) st s).live) := by
      intro st
      simp only [computeLivenessStmt, hstmt]
      rw [if_neg hdead]
      refine ⟨?_, ?_, ?_⟩
      · intro x hx
        subst hx
        exact optSeed_mono p _ _ x (optSeed_mono p _ _ x (optSeed_mem p st x))
      · intro x hx
        subst hx
        exact optSeed_mono p _ _ x (optSeed_mem p _ x)
      · intro x hx
        subst hx
        exact optSeed_mem p _ x
    have hpres : ∀ (st2 : AState) (a : StmtId),
        ((∀ x, c = some x → x ∈ st2.live) ∧ (∀ x, ta = some x → x ∈ st2.live) ∧
          (∀ x, ea = some x → x ∈ st2.live)) →
        ((∀ x, c = some x → x ∈ (computeLivenessStmt p (deadJumps p) st2 a).live) ∧
          (∀ x, ta = some x → x ∈ (computeLivenessStmt p (deadJumps p) st2 a).live) ∧
          (∀ x, ea = some x → x ∈ (computeLivenessStmt p (deadJumps p) st2 a).live)) := by
      intro st2 a hq
      exact ⟨fun x hx => computeLivenessStmt_mono p _ st2 a x (hq.1 x hx),
        fun x hx => computeLivenessStmt_mono p _ st2 a x (hq.2.1 x hx),
        fun x hx => computeLivenessStmt_mono p _ st2 a x (hq.2.2 x hx)⟩
    have h1 := foldl_establish (computeLivenessStmt p (deadJumps p))
      (fun st2 => (∀ x, c = some x → x ∈ st2.live) ∧ (∀ x, ta = some x → x ∈ st2.live) ∧
        (∀ x, ea = some x → x ∈ st2.live))
      hpres p.censusStatements hs hEst { live := [], warnings := 0 }
    refine ⟨?_, ?_, ?_⟩
    · intro x hx
      exact seedReturns_mono p _ x (seedTerms_mono p _ x (h1.1 x hx))
    · intro x hx
      exact seedReturns_mono p _ x (seedTerms_mono p _ x (h1.2.1 x hx))
    · intro x hx
      exact seedReturns_mono p _ x (seedTerms_mono p _ x (h1.2.2 x hx))
  · intro dj st s c ta ea hstmt hdj
    simp only [computeLivenessStmt, hstmt]
    rw [if_pos hdj]

/-- C7: root seeding over the term census seeds a write
MemoryLocationAccess exactly when its location is global, a write
Dereference exactly when its dataflow location is absent or global, and
nothing for read direction terms or terms of the remaining kinds. -/
theorem claim_C7 (p : Input) :
    (∀ t loc (st : AState), (p.term t).kind = TermKind.memoryLocationAccess loc →
      (p.term t).isWrite = true →
      (p.isGlobalMemory loc = true → t ∈ (computeLivenessTerm p st t).live) ∧
      (p.isGlobalMemory loc = false → computeLivenessTerm p st t = st)) ∧
    (∀ t a (st : AState), (p.term t).kind = TermKind.dereference a →
      (p.term t).isWrite = true →
      (p.dfMemLoc t = none → t ∈ (computeLivenessTerm p st t).live) ∧
      (∀ ml, p.dfMemLoc t = some ml → p.isGlobalMemory ml = true →
        t ∈ (computeLivenessTerm p st t).live) ∧
      (∀ ml, p.dfMemLoc t = some ml → p.isGlobalMemory ml = false →
        computeLivenessTerm p st t = st)) ∧
    (∀ t (st : AState), (p.term t).isWrite = false →
      (p.term t).kind ≠ TermKind.unsupported → computeLivenessTerm p st t = st) ∧
    (∀ t (st : AState),
      ((p.term t).kind = TermKind.intConst ∨ (p.term t).kind = TermKind.intrinsic ∨
        (p.term t).kind = TermKind.undefined ∨
        (∃ o, (p.term t).kind = TermKind.unaryOperator o) ∨
        (∃ l r, (p.term t).kind = TermKind.binaryOperator l r) ∨
        (∃ pr df, (p.term t).kind = TermKind.choice pr df)) →
      computeLivenessTerm p st t = st) := by
  refine ⟨?_, ?_, ?_, ?_⟩
  · intro t loc st hk hw
    simp only [computeLivenessTerm, hk, hw, ite_true]
    constructor
    · intro hg
      simp only [hg, ite_true]
      exact makeLiveTop_mem p st t
    · intro hg
      simp only [hg, Bool.false_eq_true, ite_false]
  · intro t a st hk hw
    simp only [computeLivenessTerm, hk, hw, ite_true]
    refine ⟨?_, ?_, ?_⟩
    · intro hm
      simp only [hm]
      exact makeLiveTop_mem p st t
    · intro ml hm hg
      simp only [hm, hg, ite_true]
      exact makeLiveTop_mem p st t
    · intro ml hm hg
      simp only [hm, hg, Bool.false_eq_true, ite_false]
  · intro t st hw hk
    unfold computeLivenessTerm
    cases hk2 : (p.term t).kind with
    | intConst => rfl
    | intrinsic => rfl
    | undefined => rfl
    | unaryOperator o => rfl
    | binaryOperator l r => rfl
    | choice pr df => rfl
    | unsupported => exact absurd hk2 hk
    | memoryLocationAccess loc => simp only [hw, Bool.false_eq_true, ite_false]
    | dereference a => simp only [hw, Bool.false_eq_true, ite_false]
  · intro t st hk
    unfold computeLivenessTerm
    rcases hk with hk | hk | hk | ⟨o, hk⟩ | ⟨l, r, hk⟩ | ⟨pr, df, hk⟩ <;> rw [hk]

/-- C8 (amended): the final liveness set is closed under the propagation
rules as the code dispatches them by kind: operands of live operators are
live, the chosen branch of a live Choice is live, the reaching definitions
of a live read MemoryLocationAccess or Dereference are live, the source of
a live write MemoryLocationAccess or Dereference is live, and the address
of a live Dereference without a resolved memory location is live. -/
theorem claim_C8 (p : Input) (hwf : WF p) :
    (∀ t l r, t ∈ (analyze p).live → (p.term t).kind = TermKind.binaryOperator l r →
      l ∈ (analyze p).live ∧ r ∈ (analyze p).live) ∧
    (∀ t o, t ∈ (analyze p).live → (p.term t).kind = TermKind.unaryOperator o →
      o ∈ (analyze p).live) ∧
    (∀ t pr df, t ∈ (analyze p).live → (p.term t).kind = TermKind.choice pr df →
      ((p.dfDefs pr).isEmpty = false → pr ∈ (analyze p).live) ∧
      ((p.dfDefs pr).isEmpty = true → df ∈ (analyze p).live)) ∧
    (∀ t loc, t ∈ (analyze p).live →
      (p.term t).kind = TermKind.memoryLocationAccess loc →
      (p.term t).isWrite = false → defsLive p (analyze p).live t) ∧
    (∀ t a, t ∈ (analyze p).live → (p.term t).kind = TermKind.dereference a →
      (p.term t).isWrite = false → defsLive p (analyze p).live t) ∧
    (∀ t loc, t ∈ (analyze p).live →
      (p.term t).kind = TermKind.memoryLocationAccess loc →
      (p.term t).isWrite = true → sourceLive p (analyze p).live t) ∧
    (∀ t a, t ∈ (analyze p).live → (p.term t).kind = TermKind.dereference a →
      (p.term t).isWrite = true → sourceLive p (analyze p).live t) ∧
    (∀ t a, t ∈ (analyze p).live → (p.term t).kind = TermKind.dereference a →
      p.dfMemLoc t = none → a ∈ (analyze p).live) := by
  have hc := analyze_closed p hwf
  refine ⟨?_, ?_, ?_, ?_, ?_, ?_, ?_, ?_⟩
  · intro t l r ht hk
    have hr := hc t ht
    unfold RuleHolds at hr
    rw [hk] at hr
    exact hr
  · intro t o ht hk
    have hr := hc t ht
    unfold RuleHolds at hr
    rw [hk] at hr
    exact hr
  · intro t pr df ht hk
    have hr := hc t ht
    unfold RuleHolds at hr
    rw [hk] at hr
    by_cases hd : (p.dfDefs pr).isEmpty
    · simp only [hd, ite_true] at hr
      refine ⟨fun hd2 => ?_, fun _ => hr⟩
      rw [hd] at hd2
      cases hd2
    · simp only [hd, Bool.false_eq_true, ite_false] at hr
      exact ⟨fun _ => hr, fun hd2 => absurd hd2 hd⟩
  · intro t loc ht hk hw
    have hr := hc t ht
    unfold RuleHolds at hr
    rw [hk] at hr
    simpa only [hw, Bool.false_eq_true, ite_false] using hr
  · intro t a ht hk hw
    have hr := hc t ht
    unfold RuleHolds at hr
    rw [hk] at hr
    have := hr.1
    simpa only [hw, Bool.false_eq_true, ite_false] using this
  · intro t loc ht hk hw
    have hr := hc t ht
    unfold RuleHolds at hr
    rw [hk] at hr
    simpa only [hw, ite_true] using hr
  · intro t a ht hk hw
    have hr := hc t ht
    unfold RuleHolds at hr
    rw [hk] at hr
    have := hr.1
    simpa only [hw, ite_true] using this
  · intro t a ht hk hm
    have hr := hc t ht
    unfold RuleHolds at hr
    rw [hk] at hr
    exact hr.2 (by simp [hm])

/-- C8 claims the reaching definition rule for every live read term of any
kind; on exCex term 1 is a live read UnaryOperator whose reaching
definitions name term 3, and term 3 is not live. -/
theorem claim_C8_counterexample :
    ¬ (∀ t ∈ (analyze exCex).live, ClaimRule exCex (analyze exCex).live t) := by
  intro h
  have h1 : (1 : TermId) ∈ (analyze exCex).live := by decide
  have h2 := (h 1 h1).2.2.2.1 (by decide)
  have h3 := h2 ⟨[3]⟩ (by decide) 3 (by decide)
  exact absurd h3 (by decide)

/-- Evaluation of the closure theorem on exProp: the operand of the live
unary operator term 1 is live. -/
theorem claim_C8_witness : (2 : TermId) ∈ (analyze exProp).live :=
  (claim_C8 exProp (by decide)).2.1 1 2 (by decide) rfl

/-- C10: the dead jump list is consulted only by the Jump seeding rule: a
dead jump seeds nothing, but the condition and target address terms of a
dead jump are not excluded from liveness: when any live term propagates to
one of them (as operand of a live unary operator, as source of a live
write access, or as reaching definition of a live read access), that term
is live. -/
theorem claim_C10 (p : Input) (hwf : WF p) :
    (∀ (st : AState) (s : StmtId) c ta ea, p.stmt s = StmtData.jump c ta ea →
      s ∈ deadJumps p → computeLivenessStmt p (deadJumps p) st s = st) ∧
    (∀ s c ta ea x, p.stmt s = StmtData.jump c ta ea → s ∈ deadJumps p →
      (c = some x ∨ ta = some x ∨ ea = some x) →
      (∀ u o, u ∈ (analyze p).live → (p.term u).kind = TermKind.unaryOperator o →
        o = x → x ∈ (analyze p).live) ∧
      (∀ u loc, u ∈ (analyze p).live →
        (p.term u).kind = TermKind.memoryLocationAccess loc →
        (p.term u).isWrite = true → (p.term u).source = some x →
        x ∈ (analyze p).live) ∧
      (∀ u loc ch2, u ∈ (analyze p).live →
        (p.term u).kind = TermKind.memoryLocationAccess loc →
        (p.term u).isWrite = false → ch2 ∈ p.dfDefs u → x ∈ ch2.definitions →
        x ∈ (analyze p).live)) := by
  have hc := analyze_closed p hwf
  refine ⟨?_, ?_⟩
  · intro st s c ta ea hstmt hdj
    simp only [computeLivenessStmt, hstmt]
    rw [if_pos hdj]
  · intro s c ta ea x hstmt hdj hx
    refine ⟨?_, ?_, ?_⟩
    · intro u o hu hk ho
      subst ho
      have hr := hc u hu
      unfold RuleHolds at hr
      rw [hk] at hr
      exact hr
    · intro u loc hu hk hw hsrc
      have hr := hc u hu
      unfold RuleHolds at hr
      rw [hk] at hr
      simp only [hw, ite_true] at hr
      exact hr x hsrc
    · intro u loc ch2 hu hk hw hch2 hxd
      have hr := hc u hu
      unfold RuleHolds at hr
      rw [hk] at hr
      simp only [hw, Bool.false_eq_true, ite_false] at hr
      exact hr ch2 hch2 x hxd

/-- Evaluation of C10 on exProp: the jump of statement 0 is dead, seeds
nothing, and yet its condition term 2 is live because the live unary
operator term 1 propagates to it. -/
theorem claim_C10_witness :
    computeLivenessStmt exProp (deadJumps exProp) { live := [], warnings := 0 } 0 =
      { live := [], warnings := 0 } ∧
    (2 : TermId) ∈ (analyze exProp).live := by
  have h := claim_C10 exProp (by decide)
  refine ⟨h.1 { live := [], warnings := 0 } 0 (some 2) none none rfl (by decide), ?_⟩
  exact (h.2 0 (some 2) none none 2 rfl (by decide) (Or.inl rfl)).1 1 2 (by decide) rfl rfl

/-- C4 (amended): an unsupported statement or term kind in liveness is
logged as a warning and skipped, leaving the liveness set unchanged and
the pipeline running; but a null term passed to makeLive fails the
assertion at its head and aborts the run. -/
theorem claim_C4 :
    (∀ (p : Input) (dj : List StmtId) (st : AState) (s : StmtId),
      p.stmt s = StmtData.unsupported →
      computeLivenessStmt p dj st s = { st with warnings := st.warnings + 1 }) ∧
    (∀ (p : Input) (st : AState) (t : TermId),
      (p.term t).kind = TermKind.unsupported →
      computeLivenessTerm p st t = { st with warnings := st.warnings + 1 }) ∧
    (∀ (p : Input) (fuel : Nat) (st : AState),
      makeLiveP p fuel st none = Except.error LAbort.nullTermAssert) ∧
    (∀ (p : Input) (fuel : Nat) (st : AState) (t : TermId),
      makeLiveP p fuel st (some t) = Except.ok (makeLive p fuel st t)) := by
  refine ⟨?_, ?_, fun _ _ _ => rfl, fun _ _ _ _ => rfl⟩
  · intro p dj st s hstmt
    simp only [computeLivenessStmt, hstmt]
    rfl
  · intro p st t hk
    simp only [computeLivenessTerm, hk]
    rfl

/-- C4 claims a null term passed to makeLive does not abort the run; the
model of makeLive with its null assertion aborts on the very first call. -/
theorem claim_C4_counterexample :
    makeLiveP exSeed (analyzeFuel exSeed) { live := [], warnings := 0 } none =
      Except.error LAbort.nullTermAssert := rfl

/-- Evaluation of the warn-and-skip behavior on a concrete unsupported
statement of exSeed. -/
theorem claim_C4_witness :
    computeLivenessStmt exSeed [] { live := [], warnings := 0 } 99 =
      { live := [], warnings := 1 } := by
  have h := claim_C4.1 exSeed [] { live := [], warnings := 0 } 99 (by decide)
  simpa using h

/-- Evaluation of the call, argument and return seeding of C5 on exSeed:
the call target 0, the argument term 1 and the return value term 5 are
live. -/
theorem claim_C5_witness :
    (0 : TermId) ∈ (analyze exSeed).live ∧ (1 : TermId) ∈ (analyze exSeed).live ∧
    (5 : TermId) ∈ (analyze exSeed).live := by
  refine ⟨(claim_C5 exSeed).1 0 0 (by decide) (by decide), ?_, ?_⟩
  · exact (claim_C5 exSeed).2.1 0 0 0 ⟨[⟨1, 0, 32⟩], none⟩ (fun _ => 1)
      (by decide) (by decide) rfl rfl rfl ⟨1, 0, 32⟩ (by decide)
  · exact (claim_C5 exSeed).2.2 1 ⟨[], some ⟨1, 8, 32⟩⟩ ⟨1, 8, 32⟩ 3 (fun _ => 5)
      rfl rfl rfl (by decide) rfl

/-- Evaluation of C6 on exSeed: the live jump statement 1 seeds its
condition term 2 and the dead jump statement 2 seeds nothing. -/
theorem claim_C6_witness :
    (2 : TermId) ∈ (analyze exSeed).live ∧
    computeLivenessStmt exSeed (deadJumps exSeed) { live := [], warnings := 0 } 2 =
      { live := [], warnings := 0 } := by
  refine ⟨((claim_C6 exSeed).2.2.2.1 1 (some 2) (some 3) (some 4) (by decide)
    (by decide) (by decide)).1 2 rfl, ?_⟩
  exact (claim_C6 exSeed).2.2.2.2 (deadJumps exSeed) { live := [], warnings := 0 }
    2 (some 2) none none (by decide) (by decide)

/-- Evaluation of C7 on exSeed: the global write term 6 seeds itself and
the read access term 1 seeds nothing. -/
theorem claim_C7_witness :
    (6 : TermId) ∈ (computeLivenessTerm exSeed { live := [], warnings := 0 } 6).live ∧
    computeLivenessTerm exSeed { live := [], warnings := 0 } 1 =
      { live := [], warnings := 0 } := by
  refine ⟨((claim_C7 exSeed).1 6 ⟨2, 0, 32⟩ { live := [], warnings := 0 } rfl rfl).1
    (by decide), ?_⟩
  exact (claim_C7 exSeed).2.2.1 1 { live := [], warnings := 0 } rfl (by decide)

end Snowman
